import Mathlib

/-!
Verification development for the connector-expansion transformation
(`pyomo/core/plugins/transform/expand_connectors.py`) and the sparse
linear-solver interface exercised by
`pyomo/contrib/interior_point/linalg/tests/test_linear_solvers.py`.

Python dictionaries and Pyomo ComponentMap/ComponentSet containers are
embedded as insertion-ordered association lists; connectors are embedded
as records carrying the attributes the transformation reads (`vars`,
`aggregators`, `extensives`, names, parent block).  Exceptions are
embedded with `Except`.
-/

set_option maxHeartbeats 1000000

namespace PyomoSpec

/-! ## Association lists (Python dict / ComponentMap semantics) -/

variable {α β : Type} [DecidableEq α]

/-- Dictionary lookup: first entry with the given key. -/
def alookup : List (α × β) → α → Option β
  | [], _ => none
  | p :: rest, k => if p.1 = k then some p.2 else alookup rest k

/-- Dictionary assignment `d[k] = v`: replace in place, or append when absent. -/
def assocSet : List (α × β) → α → β → List (α × β)
  | [], k, v => [(k, v)]
  | p :: rest, k, v => if p.1 = k then (k, v) :: rest else p :: assocSet rest k v

/-- Dictionary deletion `del d[k]`. -/
def adel : List (α × β) → α → List (α × β)
  | [], _ => []
  | p :: rest, k => if p.1 = k then adel rest k else p :: adel rest k

/-- The key list of a dictionary. -/
def keysOf (m : List (α × β)) : List α := m.map Prod.fst

theorem alookup_assocSet (m : List (α × β)) (k : α) (v : β) (x : α) :
    alookup (assocSet m k v) x = if k = x then some v else alookup m x := by
  induction m with
  | nil =>
      by_cases h : k = x
      · simp [assocSet, alookup, h]
      · simp [assocSet, alookup, h]
  | cons p rest ih =>
      by_cases hk : p.1 = k
      · by_cases hx : k = x
        · simp [assocSet, alookup, hk, hx]
        · have hpx : ¬ p.1 = x := fun h => hx (hk ▸ h)
          simp [assocSet, alookup, hk, hx, hpx]
      · by_cases hx : p.1 = x
        · have hkx : ¬ k = x := fun h => hk (hx ▸ h ▸ rfl)
          have hxk : ¬ x = k := fun h => hkx h.symm
          simp [assocSet, alookup, hk, hx, hkx, hxk]
        · simp [assocSet, alookup, hk, hx, ih]

theorem alookup_adel (m : List (α × β)) (k x : α) :
    alookup (adel m k) x = if k = x then none else alookup m x := by
  induction m with
  | nil => simp [adel, alookup]
  | cons p rest ih =>
      by_cases hk : p.1 = k
      · by_cases hx : k = x
        · subst hx
          simp [adel, hk, ih]
        · have hpx : ¬ p.1 = x := fun h => hx (hk ▸ h)
          simp [adel, alookup, hk, hx, hpx, ih]
      · by_cases hx : p.1 = x
        · have hkx : ¬ k = x := fun h => hk (hx ▸ h ▸ rfl)
          have hxk : ¬ x = k := fun h => hkx h.symm
          simp [adel, alookup, hk, hx, hkx, hxk]
        · simp [adel, alookup, hk, hx, ih]

theorem keysOf_nil : keysOf ([] : List (α × β)) = [] := rfl

theorem keysOf_cons (p : α × β) (rest : List (α × β)) :
    keysOf (p :: rest) = p.1 :: keysOf rest := rfl

theorem mem_keysOf_cons {p : α × β} {rest : List (α × β)} {x : α} :
    x ∈ keysOf (p :: rest) ↔ x = p.1 ∨ x ∈ keysOf rest := by
  rw [keysOf_cons, List.mem_cons]

theorem keysOf_assocSet_of_mem (m : List (α × β)) (k : α) (v : β)
    (h : k ∈ keysOf m) : keysOf (assocSet m k v) = keysOf m := by
  induction m with
  | nil => simp [keysOf_nil] at h
  | cons p rest ih =>
      by_cases hk : p.1 = k
      · simp [assocSet, hk, keysOf_cons]
      · have h' : k ∈ keysOf rest := by
          rcases mem_keysOf_cons.mp h with h1 | h1
          · exact absurd h1.symm hk
          · exact h1
        rw [assocSet, if_neg hk, keysOf_cons, keysOf_cons, ih h']

theorem keysOf_assocSet_of_not_mem (m : List (α × β)) (k : α) (v : β)
    (h : ¬ k ∈ keysOf m) : keysOf (assocSet m k v) = keysOf m ++ [k] := by
  induction m with
  | nil => simp [assocSet, keysOf_nil, keysOf_cons]
  | cons p rest ih =>
      have hk : ¬ p.1 = k := by
        intro hh; exact h (mem_keysOf_cons.mpr (Or.inl hh.symm))
      have h' : ¬ k ∈ keysOf rest := by
        intro hh; exact h (mem_keysOf_cons.mpr (Or.inr hh))
      rw [assocSet, if_neg hk, keysOf_cons, keysOf_cons, ih h', List.cons_append]

theorem nodup_keysOf_assocSet (m : List (α × β)) (k : α) (v : β)
    (h : (keysOf m).Nodup) : (keysOf (assocSet m k v)).Nodup := by
  by_cases hm : k ∈ keysOf m
  · rwa [keysOf_assocSet_of_mem m k v hm]
  · rw [keysOf_assocSet_of_not_mem m k v hm]
    simp [List.nodup_append, h, hm]

theorem mem_keysOf_adel (m : List (α × β)) (k x : α) :
    x ∈ keysOf (adel m k) ↔ x ∈ keysOf m ∧ x ≠ k := by
  induction m with
  | nil => simp [adel, keysOf_nil]
  | cons p rest ih =>
      by_cases hk : p.1 = k
      · rw [adel, if_pos hk, ih]
        constructor
        · intro ⟨h1, h2⟩; exact ⟨mem_keysOf_cons.mpr (Or.inr h1), h2⟩
        · intro ⟨h1, h2⟩
          rcases mem_keysOf_cons.mp h1 with h3 | h3
          · exact absurd (h3.trans hk) h2
          · exact ⟨h3, h2⟩
      · rw [adel, if_neg hk, mem_keysOf_cons, ih, mem_keysOf_cons]
        constructor
        · intro h1
          rcases h1 with h1 | ⟨h2, h3⟩
          · exact ⟨Or.inl h1, fun hh => hk ((h1.symm.trans hh) ▸ rfl)⟩
          · exact ⟨Or.inr h2, h3⟩
        · intro ⟨h1, h2⟩
          rcases h1 with h1 | h1
          · exact Or.inl h1
          · exact Or.inr ⟨h1, h2⟩

theorem nodup_keysOf_adel (m : List (α × β)) (k : α)
    (h : (keysOf m).Nodup) : (keysOf (adel m k)).Nodup := by
  induction m with
  | nil => simp [adel, keysOf_nil]
  | cons p rest ih =>
      rw [keysOf_cons] at h
      rcases List.nodup_cons.mp h with ⟨hp, hrest⟩
      by_cases hk : p.1 = k
      · rw [adel, if_pos hk]; exact ih hrest
      · rw [adel, if_neg hk, keysOf_cons]
        refine List.nodup_cons.mpr ⟨?_, ih hrest⟩
        intro hmem
        exact hp ((mem_keysOf_adel rest k p.1).mp hmem).1

theorem alookup_isSome_iff_mem_keys (m : List (α × β)) (x : α) :
    (alookup m x).isSome ↔ x ∈ keysOf m := by
  induction m with
  | nil => simp [alookup, keysOf_nil]
  | cons p rest ih =>
      rw [mem_keysOf_cons]
      by_cases hx : p.1 = x
      · simp [alookup, hx]
      · have : ¬ x = p.1 := fun h => hx h.symm
        simp [alookup, hx, this, ih]

theorem alookup_eq_none_iff_not_mem (m : List (α × β)) (x : α) :
    alookup m x = none ↔ ¬ x ∈ keysOf m := by
  rw [← alookup_isSome_iff_mem_keys]
  cases alookup m x <;> simp

/-! ## Stable insertion sort by key (Python `sorted` / `list.sort`) -/

variable {γ : Type} [LinearOrder γ]

/-- Stable insertion of one element into a key-sorted list: the new element is
placed after all existing elements with an equal key, as Python's stable sort
does. -/
def insertByKey (key : β → γ) (x : β) : List β → List β
  | [] => [x]
  | y :: ys => if key x < key y then x :: y :: ys else y :: insertByKey key x ys

/-- Stable sort by key, modelling Python `sorted(...)` with unique keys. -/
def sortByKey (key : β → γ) : List β → List β
  | [] => []
  | x :: xs => insertByKey key x (sortByKey key xs)

theorem perm_insertByKey (key : β → γ) (x : β) (l : List β) :
    List.Perm (insertByKey key x l) (x :: l) := by
  induction l with
  | nil => simp [insertByKey]
  | cons y ys ih =>
      by_cases h : key x < key y
      · simp [insertByKey, h]
      · rw [insertByKey, if_neg h]
        exact List.Perm.trans (List.Perm.cons y ih) (List.Perm.swap x y ys)

theorem perm_sortByKey (key : β → γ) (l : List β) : List.Perm (sortByKey key l) l := by
  induction l with
  | nil => simp [sortByKey]
  | cons x xs ih =>
      rw [sortByKey]
      exact List.Perm.trans (perm_insertByKey key x (sortByKey key xs)) (List.Perm.cons x ih)

theorem mem_insertByKey (key : β → γ) (x z : β) (l : List β) :
    z ∈ insertByKey key x l ↔ z = x ∨ z ∈ l := by
  have := (perm_insertByKey key x l).mem_iff (a := z)
  simpa using this

theorem sorted_insertByKey (key : β → γ) (x : β) (l : List β)
    (h : l.Pairwise (fun a b => key a ≤ key b)) :
    (insertByKey key x l).Pairwise (fun a b => key a ≤ key b) := by
  induction l with
  | nil => simp [insertByKey]
  | cons y ys ih =>
      rcases List.pairwise_cons.mp h with ⟨hy, hys⟩
      by_cases hlt : key x < key y
      · rw [insertByKey, if_pos hlt]
        refine List.pairwise_cons.mpr ⟨?_, h⟩
        intro z hz
        rcases List.mem_cons.mp hz with rfl | hz
        · exact le_of_lt hlt
        · exact le_trans (le_of_lt hlt) (hy z hz)
      · rw [insertByKey, if_neg hlt]
        refine List.pairwise_cons.mpr ⟨?_, ih hys⟩
        intro z hz
        rcases (mem_insertByKey key x z ys).mp hz with rfl | hz
        · exact le_of_not_lt hlt
        · exact hy z hz

theorem sorted_sortByKey (key : β → γ) (l : List β) :
    (sortByKey key l).Pairwise (fun a b => key a ≤ key b) := by
  induction l with
  | nil => simp [sortByKey]
  | cons x xs ih => exact sorted_insertByKey key x (sortByKey key xs) ih

/-- Two key-sorted lists that are permutations of each other and have no
duplicate keys are equal: the sorted order is independent of the order in
which the underlying container presented its elements. -/
theorem sorted_perm_unique (key : β → γ) :
    ∀ (l₁ l₂ : List β), List.Perm l₁ l₂ →
      l₁.Pairwise (fun a b => key a ≤ key b) →
      l₂.Pairwise (fun a b => key a ≤ key b) →
      (l₁.map key).Nodup → l₁ = l₂ := by
  intro l₁
  induction l₁ with
  | nil => intro l₂ hp _ _ _; exact (hp.symm.eq_nil).symm
  | cons a t₁ ih =>
      intro l₂ hp h₁ h₂ hnd
      cases l₂ with
      | nil => exact absurd hp.symm (by simp)
      | cons b t₂ =>
          rcases List.pairwise_cons.mp h₁ with ⟨ha, ht₁⟩
          rcases List.pairwise_cons.mp h₂ with ⟨hb, ht₂⟩
          have hab : a = b := by
            by_contra hne
            have haMem : a ∈ b :: t₂ := hp.mem_iff.mp (by simp)
            have hbMem : b ∈ a :: t₁ := hp.mem_iff.mpr (by simp)
            have haT2 : a ∈ t₂ := by
              rcases List.mem_cons.mp haMem with h | h
              · exact absurd h hne
              · exact h
            have hbT1 : b ∈ t₁ := by
              rcases List.mem_cons.mp hbMem with h | h
              · exact absurd h.symm hne
              · exact h
            have h1 : key a ≤ key b := ha b hbT1
            have h2 : key b ≤ key a := hb a haT2
            have hkey : key a = key b := le_antisymm h1 h2
            rw [List.map_cons] at hnd
            rcases List.nodup_cons.mp hnd with ⟨hka, _⟩
            exact hka (by rw [hkey]; exact List.mem_map.mpr ⟨b, hbT1, rfl⟩)
          subst hab
          have hpt : List.Perm t₁ t₂ := hp.cons_inv
          rw [List.map_cons] at hnd
          rcases List.nodup_cons.mp hnd with ⟨_, hnd'⟩
          rw [ih t₂ hpt ht₁ ht₂ hnd']

/-! ## `_ConnExpansion._collect_connectors`: incremental connector grouping

Connectors are represented by natural-number identities.  The state embeds
the three mutable structures of the Python code: `matched` embeds the
`ComponentMap` `matched_connectors` (connector to the identity of its group,
which in the source is the identity of the backing `ComponentSet`),
`groups` embeds `connector_groups` (live group to its member set, in
insertion order), and `nextID` embeds the `groupID` counter.  A "comp" is
the sequence of connectors extracted from one constraint body or one
connection statement. -/

structure UFState where
  matched : List (Nat × Nat)
  groups : List (Nat × List Nat)
  nextID : Nat
deriving DecidableEq

/-- `for i in src: matched_connectors[i] = ref` — reassign the class pointer
of every member of the merged-away set. -/
def setAll (m : List (Nat × Nat)) (ks : List Nat) (g : Nat) : List (Nat × Nat) :=
  ks.foldl (fun acc i => assocSet acc i g) m

/-- `ComponentSet.update`: append the elements not already present. -/
def csUpdate (base extra : List Nat) : List Nat :=
  base ++ extra.filter (fun x => ¬ x ∈ base)

/-- One iteration of the `for c in itr` loop of `_collect_connectors`
(lines 58-95), carrying the current reference group (`ref`). -/
def stepConn (s : UFState) (ref : Option Nat) (c : Nat) : UFState × Option Nat :=
  match alookup s.matched c with
  | some g =>
      match ref with
      | none => (s, some g)
      | some r =>
          if g = r then (s, some r)
          else
            let rM := (alookup s.groups r).getD []
            let gM := (alookup s.groups g).getD []
            let rid := if rM.length < gM.length then g else r
            let sid := if rM.length < gM.length then r else g
            let ridM := if rM.length < gM.length then gM else rM
            let sidM := if rM.length < gM.length then rM else gM
            ({ matched := setAll s.matched sidM rid
               groups := adel (assocSet s.groups rid (csUpdate ridM sidM)) sid
               nextID := s.nextID }, some rid)
  | none =>
      match ref with
      | none =>
          ({ matched := assocSet s.matched c s.nextID
             groups := assocSet s.groups s.nextID (csUpdate [] [c])
             nextID := s.nextID + 1 }, some s.nextID)
      | some r =>
          let rM := (alookup s.groups r).getD []
          ({ matched := assocSet s.matched c r
             groups := assocSet s.groups r (csUpdate rM [c])
             nextID := s.nextID }, some r)

/-- Process one constraint/connection: fold the step over its connectors,
starting with no reference group. -/
def stepComp (s : UFState) (comp : List Nat) : UFState :=
  (comp.foldl (fun p c => stepConn p.1 p.2 c) (s, none)).1

/-- The grouping pass of `_collect_connectors` over a whole model, given the
deterministic traversal of its constraints/connections. -/
def collectConnectors (comps : List (List Nat)) : UFState :=
  comps.foldl stepComp ⟨[], [], 0⟩

/-- Two connectors appeared together in (at least) one constraint or
connection. -/
def coOccur (comps : List (List Nat)) (a b : Nat) : Prop :=
  ∃ comp, comp ∈ comps ∧ a ∈ comp ∧ b ∈ comp

/-- All connectors mentioned by the model. -/
def elemsOf (comps : List (List Nat)) : List Nat := comps.flatten

/-- Two connectors were placed in the same group. -/
def sameClass (s : UFState) (a b : Nat) : Prop :=
  ∃ g, alookup s.matched a = some g ∧ alookup s.matched b = some g

/-- A connector has been discovered (is a key of `matched_connectors`). -/
def discovered (s : UFState) (a : Nat) : Prop :=
  (alookup s.matched a).isSome

/-- Well-formedness of the collection state: the group table and the
per-connector class pointers describe the same partition. -/
structure WF (s : UFState) : Prop where
  matchedKeys : (keysOf s.matched).Nodup
  groupKeys : (keysOf s.groups).Nodup
  memNodup : ∀ g mem, alookup s.groups g = some mem → mem.Nodup
  consistent : ∀ c g, alookup s.matched c = some g ↔
    ∃ mem, alookup s.groups g = some mem ∧ c ∈ mem
  idLt : ∀ g, g ∈ keysOf s.groups → g < s.nextID

theorem sameClass_symm {s : UFState} {a b : Nat} (h : sameClass s a b) :
    sameClass s b a := by
  rcases h with ⟨g, h1, h2⟩; exact ⟨g, h2, h1⟩

theorem sameClass_trans {s : UFState} {a b c : Nat}
    (h1 : sameClass s a b) (h2 : sameClass s b c) : sameClass s a c := by
  rcases h1 with ⟨g, ha, hb⟩
  rcases h2 with ⟨g2, hb2, hc⟩
  have : g = g2 := by
    have := hb.symm.trans hb2
    exact Option.some.inj this
  exact ⟨g, ha, this ▸ hc⟩

theorem alookup_setAll (m : List (Nat × Nat)) (ks : List Nat) (g : Nat) (x : Nat) :
    alookup (setAll m ks g) x = if x ∈ ks then some g else alookup m x := by
  induction ks generalizing m with
  | nil => simp [setAll]
  | cons i rest ih =>
      have : setAll m (i :: rest) g = setAll (assocSet m i g) rest g := rfl
      rw [this, ih]
      by_cases hx : x ∈ rest
      · simp [hx]
      · by_cases hxi : x = i
        · simp [hx, hxi, alookup_assocSet]
        · have : ¬ i = x := fun h => hxi h.symm
          simp [hx, hxi, alookup_assocSet, this]

theorem keysOf_setAll_of_subset (m : List (Nat × Nat)) (ks : List Nat) (g : Nat)
    (h : ∀ i, i ∈ ks → i ∈ keysOf m) : keysOf (setAll m ks g) = keysOf m := by
  induction ks generalizing m with
  | nil => simp [setAll]
  | cons i rest ih =>
      have hstep : setAll m (i :: rest) g = setAll (assocSet m i g) rest g := rfl
      have hmem : i ∈ keysOf m := h i (by simp)
      have hsub : ∀ j, j ∈ rest → j ∈ keysOf (assocSet m i g) := by
        intro j hj
        rw [keysOf_assocSet_of_mem m i g hmem]
        exact h j (by simp [hj])
      rw [hstep, ih (assocSet m i g) hsub, keysOf_assocSet_of_mem m i g hmem]

theorem mem_csUpdate (base extra : List Nat) (x : Nat) :
    x ∈ csUpdate base extra ↔ x ∈ base ∨ x ∈ extra := by
  simp only [csUpdate, List.mem_append, List.mem_filter]
  constructor
  · intro h
    rcases h with h | ⟨h, _⟩
    · exact Or.inl h
    · exact Or.inr h
  · intro h
    rcases h with h | h
    · exact Or.inl h
    · by_cases hb : x ∈ base
      · exact Or.inl hb
      · exact Or.inr ⟨h, by simpa using hb⟩

theorem nodup_csUpdate (base extra : List Nat)
    (hb : base.Nodup) (he : extra.Nodup) : (csUpdate base extra).Nodup := by
  refine List.Nodup.append hb (he.filter _) ?_
  intro x hx hmem
  rcases List.mem_filter.mp hmem with ⟨_, hdec⟩
  simp only [decide_eq_true_eq] at hdec
  exact hdec hx

/-- The state produced by the merge branch of `_collect_connectors`
(lines 74-80): every member of the source set is repointed at the reference
set, the reference set absorbs the source members, and the source group
record is deleted. -/
def mergedState (s : UFState) (rid sid : Nat) (ridM sidM : List Nat) : UFState :=
  { matched := setAll s.matched sidM rid
    groups := adel (assocSet s.groups rid (csUpdate ridM sidM)) sid
    nextID := s.nextID }

theorem stepConn_merge_eq (s : UFState) (r g c : Nat)
    (hg : alookup s.matched c = some g) (hne : ¬ g = r) :
    stepConn s (some r) c =
      (if ((alookup s.groups r).getD []).length < ((alookup s.groups g).getD []).length
       then (mergedState s g r ((alookup s.groups g).getD []) ((alookup s.groups r).getD []),
             some g)
       else (mergedState s r g ((alookup s.groups r).getD []) ((alookup s.groups g).getD []),
             some r)) := by
  by_cases h : ((alookup s.groups r).getD []).length < ((alookup s.groups g).getD []).length <;>
    simp [stepConn, hg, hne, mergedState, h]

theorem mergedState_matched (s : UFState) (rid sid : Nat) (ridM sidM : List Nat) (x : Nat) :
    alookup (mergedState s rid sid ridM sidM).matched x =
      if x ∈ sidM then some rid else alookup s.matched x := by
  simp [mergedState, alookup_setAll]

theorem mergedState_groups (s : UFState) (rid sid : Nat) (ridM sidM : List Nat) (h : Nat) :
    alookup (mergedState s rid sid ridM sidM).groups h =
      if sid = h then none
      else if rid = h then some (csUpdate ridM sidM)
      else alookup s.groups h := by
  simp [mergedState, alookup_adel, alookup_assocSet]

section Merge

variable {s : UFState} {rid sid : Nat} {ridM sidM : List Nat}

theorem merge_disjoint (hwf : WF s) (hrid : alookup s.groups rid = some ridM)
    (hsid : alookup s.groups sid = some sidM) (hne : rid ≠ sid) :
    ∀ x, x ∈ ridM → x ∈ sidM → False := by
  intro x hr hs
  have h1 : alookup s.matched x = some rid := (hwf.consistent x rid).mpr ⟨ridM, hrid, hr⟩
  have h2 : alookup s.matched x = some sid := (hwf.consistent x sid).mpr ⟨sidM, hsid, hs⟩
  exact hne (Option.some.inj (h1.symm.trans h2))

theorem merge_WF (hwf : WF s) (hrid : alookup s.groups rid = some ridM)
    (hsid : alookup s.groups sid = some sidM) (hne : rid ≠ sid) :
    WF (mergedState s rid sid ridM sidM) := by
  have hdisj := merge_disjoint hwf hrid hsid hne
  have hsid_mem : ∀ x, x ∈ sidM → alookup s.matched x = some sid :=
    fun x hx => (hwf.consistent x sid).mpr ⟨sidM, hsid, hx⟩
  have hrid_mem : ∀ x, x ∈ ridM → alookup s.matched x = some rid :=
    fun x hx => (hwf.consistent x rid).mpr ⟨ridM, hrid, hx⟩
  have hridKey : rid ∈ keysOf s.groups :=
    (alookup_isSome_iff_mem_keys s.groups rid).mp (by simp [hrid])
  refine ⟨?_, ?_, ?_, ?_, ?_⟩
  · rw [show (mergedState s rid sid ridM sidM).matched = setAll s.matched sidM rid from rfl,
      keysOf_setAll_of_subset]
    · exact hwf.matchedKeys
    · intro i hi
      exact (alookup_isSome_iff_mem_keys s.matched i).mp (by simp [hsid_mem i hi])
  · exact nodup_keysOf_adel _ sid (nodup_keysOf_assocSet _ rid _ hwf.groupKeys)
  · intro h mem hmem
    rw [mergedState_groups] at hmem
    by_cases h1 : sid = h
    · simp [h1] at hmem
    · by_cases h2 : rid = h
      · rw [if_neg h1, if_pos h2] at hmem
        have := Option.some.inj hmem
        subst this
        exact nodup_csUpdate ridM sidM (hwf.memNodup rid ridM hrid)
          (hwf.memNodup sid sidM hsid)
      · rw [if_neg h1, if_neg h2] at hmem
        exact hwf.memNodup h mem hmem
  · intro x h
    rw [mergedState_matched, mergedState_groups]
    by_cases hx : x ∈ sidM
    · rw [if_pos hx]
      constructor
      · intro hh
        have : rid = h := Option.some.inj hh
        subst this
        rw [if_neg (Ne.symm hne), if_pos rfl]
        exact ⟨csUpdate ridM sidM, rfl, (mem_csUpdate _ _ x).mpr (Or.inr hx)⟩
      · intro ⟨mem, hmem, hxmem⟩
        by_cases h1 : sid = h
        · simp [h1] at hmem
        · by_cases h2 : rid = h
          · exact h2 ▸ rfl
          · rw [if_neg h1, if_neg h2] at hmem
            have hxh : alookup s.matched x = some h :=
              (hwf.consistent x h).mpr ⟨mem, hmem, hxmem⟩
            have hxs : alookup s.matched x = some sid := hsid_mem x hx
            exact absurd (Option.some.inj (hxh.symm.trans hxs)).symm h1
    · rw [if_neg hx]
      constructor
      · intro hh
        rcases (hwf.consistent x h).mp hh with ⟨mem, hmem, hxmem⟩
        by_cases h1 : sid = h
        · subst h1
          have : mem = sidM := Option.some.inj (hmem.symm.trans hsid)
          subst this
          exact absurd hxmem hx
        · by_cases h2 : rid = h
          · subst h2
            have hmr : mem = ridM := Option.some.inj (hmem.symm.trans hrid)
            rw [if_neg h1, if_pos rfl]
            exact ⟨csUpdate ridM sidM, rfl,
              (mem_csUpdate _ _ x).mpr (Or.inl (hmr ▸ hxmem))⟩
          · rw [if_neg h1, if_neg h2]
            exact ⟨mem, hmem, hxmem⟩
      · intro ⟨mem, hmem, hxmem⟩
        by_cases h1 : sid = h
        · simp [h1] at hmem
        · by_cases h2 : rid = h
          · rw [if_neg h1, if_pos h2] at hmem
            have := Option.some.inj hmem
            subst this
            rcases (mem_csUpdate _ _ x).mp hxmem with hr | hs
            · exact h2 ▸ hrid_mem x hr
            · exact absurd hs hx
          · rw [if_neg h1, if_neg h2] at hmem
            exact (hwf.consistent x h).mpr ⟨mem, hmem, hxmem⟩
  · intro h hmem
    rw [show (mergedState s rid sid ridM sidM).groups
        = adel (assocSet s.groups rid (csUpdate ridM sidM)) sid from rfl] at hmem
    rcases (mem_keysOf_adel _ sid h).mp hmem with ⟨hmem2, _⟩
    rw [keysOf_assocSet_of_mem _ rid _ hridKey] at hmem2
    exact hwf.idLt h hmem2

theorem merge_class_pointer (hwf : WF s) (hrid : alookup s.groups rid = some ridM)
    (hsid : alookup s.groups sid = some sidM) (hne : rid ≠ sid) (x : Nat) :
    (alookup s.matched x = some rid ∨ alookup s.matched x = some sid) →
      alookup (mergedState s rid sid ridM sidM).matched x = some rid := by
  intro hx
  rw [mergedState_matched]
  rcases hx with hx | hx
  · rw [if_neg]
    · exact hx
    · intro hmem
      have := (hwf.consistent x sid).mpr
        ⟨sidM, hsid, hmem⟩
      exact hne (Option.some.inj (hx.symm.trans this))
  · rw [if_pos]
    rcases (hwf.consistent x sid).mp hx with ⟨mem, hmem, hxmem⟩
    have : mem = sidM := Option.some.inj (hmem.symm.trans hsid)
    exact this ▸ hxmem

theorem merge_matched_cases (hwf : WF s) (hrid : alookup s.groups rid = some ridM)
    (hsid : alookup s.groups sid = some sidM) (hne : rid ≠ sid) (x h : Nat) :
    alookup (mergedState s rid sid ridM sidM).matched x = some h →
      (alookup s.matched x = some h ∧ ¬ h = sid) ∨
      (h = rid ∧ alookup s.matched x = some sid) := by
  intro hx
  rw [mergedState_matched] at hx
  by_cases hmem : x ∈ sidM
  · rw [if_pos hmem] at hx
    exact Or.inr ⟨(Option.some.inj hx).symm, (hwf.consistent x sid).mpr ⟨sidM, hsid, hmem⟩⟩
  · rw [if_neg hmem] at hx
    left
    refine ⟨hx, ?_⟩
    intro hh
    rw [hh] at hx
    rcases (hwf.consistent x sid).mp hx with ⟨mem, hm, hxm⟩
    have : mem = sidM := Option.some.inj (hm.symm.trans hsid)
    exact hmem (this ▸ hxm)

theorem merge_sameClass_mono (hwf : WF s) (hrid : alookup s.groups rid = some ridM)
    (hsid : alookup s.groups sid = some sidM) (hne : rid ≠ sid) {a b : Nat}
    (h : sameClass s a b) : sameClass (mergedState s rid sid ridM sidM) a b := by
  rcases h with ⟨g, ha, hb⟩
  rw [sameClass]
  by_cases hg : g = sid
  · subst hg
    exact ⟨rid, merge_class_pointer hwf hrid hsid hne a (Or.inr ha),
      merge_class_pointer hwf hrid hsid hne b (Or.inr hb)⟩
  · refine ⟨g, ?_, ?_⟩ <;> rw [mergedState_matched]
    · rw [if_neg]
      · exact ha
      · intro hmem
        exact hg (Option.some.inj
          (ha.symm.trans ((hwf.consistent a sid).mpr ⟨sidM, hsid, hmem⟩)))
    · rw [if_neg]
      · exact hb
      · intro hmem
        exact hg (Option.some.inj
          (hb.symm.trans ((hwf.consistent b sid).mpr ⟨sidM, hsid, hmem⟩)))

end Merge

/-- The co-occurrence relation extended with "both appeared in the processed
part of the current component". -/
def Rel (comps : List (List Nat)) (p : List Nat) (a b : Nat) : Prop :=
  coOccur comps a b ∨ (a ∈ p ∧ b ∈ p)

theorem coOccur_mem {comps : List (List Nat)} {a b : Nat} (h : coOccur comps a b) :
    a ∈ elemsOf comps ∧ b ∈ elemsOf comps := by
  rcases h with ⟨comp, hcomp, ha, hb⟩
  exact ⟨List.mem_flatten.mpr ⟨comp, hcomp, ha⟩, List.mem_flatten.mpr ⟨comp, hcomp, hb⟩⟩

theorem eqvGen_lift {R S : Nat → Nat → Prop}
    (h : ∀ a b, R a b → Relation.EqvGen S a b) :
    ∀ a b, Relation.EqvGen R a b → Relation.EqvGen S a b := by
  intro a b hab
  induction hab with
  | rel x y hxy => exact h x y hxy
  | refl x => exact Relation.EqvGen.refl x
  | symm x y _ ih => exact Relation.EqvGen.symm x y ih
  | trans x y z _ _ ih1 ih2 => exact Relation.EqvGen.trans x y z ih1 ih2

theorem eqvGen_to_sameClass {s : UFState} {R : Nat → Nat → Prop}
    (h : ∀ x y, R x y → sameClass s x y) :
    ∀ a b, Relation.EqvGen R a b → a = b ∨ sameClass s a b := by
  intro a b hab
  induction hab with
  | rel x y hxy => exact Or.inr (h x y hxy)
  | refl x => exact Or.inl rfl
  | symm x y _ ih =>
      rcases ih with rfl | hsc
      · exact Or.inl rfl
      · exact Or.inr (sameClass_symm hsc)
  | trans x y z _ _ ih1 ih2 =>
      rcases ih1 with rfl | h1
      · exact ih2
      · rcases ih2 with rfl | h2
        · exact Or.inr h1
        · exact Or.inr (sameClass_trans h1 h2)

/-- Invariant of the inner `for c in itr` fold: `comps` are the components
already fully processed, `p` the connectors of the current component
processed so far, `ref` the current reference group. -/
structure FInv (comps : List (List Nat)) (p : List Nat) (s : UFState)
    (ref : Option Nat) : Prop where
  wf : WF s
  disc : ∀ a, discovered s a ↔ (a ∈ elemsOf comps ∨ a ∈ p)
  classes : ∀ a b, sameClass s a b ↔
    ((a ∈ elemsOf comps ∨ a ∈ p) ∧ (b ∈ elemsOf comps ∨ b ∈ p) ∧
      Relation.EqvGen (Rel comps p) a b)
  refNone : ref = none → p = []
  refLive : ∀ r, ref = some r → ∃ mem, alookup s.groups r = some mem
  refPtr : ∀ r x, ref = some r → x ∈ p → alookup s.matched x = some r
  refNe : ∀ r, ref = some r → p ≠ []

theorem FInv.discAt {comps p s ref} (h : FInv comps p s ref) {a : Nat}
    (ha : a ∈ elemsOf comps ∨ a ∈ p) : sameClass s a a := by
  have := (h.disc a).mpr ha
  rcases Option.isSome_iff_exists.mp this with ⟨g, hg⟩
  exact ⟨g, hg, hg⟩

theorem Rel_mono_p {comps : List (List Nat)} {p p2 : List Nat}
    (h : ∀ x, x ∈ p → x ∈ p2) {a b : Nat} : Rel comps p a b → Rel comps p2 a b := by
  intro hab
  rcases hab with hco | ⟨ha, hb⟩
  · exact Or.inl hco
  · exact Or.inr ⟨h a ha, h b hb⟩

theorem coOccur_sameClass {comps p s ref} (h : FInv comps p s ref) {x y : Nat}
    (hxy : coOccur comps x y) : sameClass s x y := by
  rcases coOccur_mem hxy with ⟨hx, hy⟩
  exact (h.classes x y).mpr
    ⟨Or.inl hx, Or.inl hy, Relation.EqvGen.rel x y (Or.inl hxy)⟩

theorem merge_FInv (comps : List (List Nat)) (p : List Nat) (s : UFState)
    (r g c rid sid : Nat) (ridM sidM : List Nat)
    (h : FInv comps p s (some r))
    (hc : alookup s.matched c = some g) (hgr : g ≠ r)
    (hridM : alookup s.groups rid = some ridM)
    (hsidM : alookup s.groups sid = some sidM)
    (hset : (rid = r ∧ sid = g) ∨ (rid = g ∧ sid = r)) :
    FInv comps (p ++ [c]) (mergedState s rid sid ridM sidM) (some rid) := by
  have hwf := h.wf
  have hne : rid ≠ sid := by
    rcases hset with ⟨h1, h2⟩ | ⟨h1, h2⟩
    · rw [h1, h2]; exact Ne.symm hgr
    · rw [h1, h2]; exact hgr
  have hcE : c ∈ elemsOf comps ∨ c ∈ p :=
    (h.disc c).mp (by simp [discovered, hc])
  have hE : ∀ a, (a ∈ elemsOf comps ∨ a ∈ p ++ [c]) ↔ (a ∈ elemsOf comps ∨ a ∈ p) := by
    intro a
    constructor
    · intro ha
      rcases ha with ha | ha
      · exact Or.inl ha
      · rcases List.mem_append.mp ha with ha | ha
        · exact Or.inr ha
        · have : a = c := by simpa using ha
          exact this ▸ hcE
    · intro ha
      rcases ha with ha | ha
      · exact Or.inl ha
      · exact Or.inr (List.mem_append_left _ ha)
  have hptr : ∀ x, x ∈ p ++ [c] →
      alookup (mergedState s rid sid ridM sidM).matched x = some rid := by
    intro x hx
    rcases List.mem_append.mp hx with hx | hx
    · have hxr : alookup s.matched x = some r := h.refPtr r x rfl hx
      refine merge_class_pointer hwf hridM hsidM hne x ?_
      rcases hset with ⟨h1, _⟩ | ⟨_, h2⟩
      · exact Or.inl (h1 ▸ hxr)
      · exact Or.inr (h2 ▸ hxr)
    · have hxc : x = c := by simpa using hx
      refine merge_class_pointer hwf hridM hsidM hne x ?_
      rcases hset with ⟨_, h2⟩ | ⟨h1, _⟩
      · exact Or.inr (h2 ▸ (hxc ▸ hc))
      · exact Or.inl (h1 ▸ (hxc ▸ hc))
  have hbridge : ∀ u w, alookup s.matched u = some g → alookup s.matched w = some r →
      Relation.EqvGen (Rel comps (p ++ [c])) u w := by
    intro u w hu hw
    have hpne : p ≠ [] := h.refNe r rfl
    rcases List.exists_mem_of_ne_nil p hpne with ⟨x₀, hx₀⟩
    have huc : Relation.EqvGen (Rel comps (p ++ [c])) u c := by
      have : sameClass s u c := ⟨g, hu, hc⟩
      have := ((h.classes u c).mp this).2.2
      exact eqvGen_lift (fun a b hab =>
        Relation.EqvGen.rel a b (Rel_mono_p (fun x hx => List.mem_append_left _ hx) hab))
        u c this
    have hcx : Relation.EqvGen (Rel comps (p ++ [c])) c x₀ :=
      Relation.EqvGen.rel c x₀ (Or.inr ⟨by simp, List.mem_append_left _ hx₀⟩)
    have hxw : Relation.EqvGen (Rel comps (p ++ [c])) x₀ w := by
      have : sameClass s x₀ w := ⟨r, h.refPtr r x₀ rfl hx₀, hw⟩
      have := ((h.classes x₀ w).mp this).2.2
      exact eqvGen_lift (fun a b hab =>
        Relation.EqvGen.rel a b (Rel_mono_p (fun x hx => List.mem_append_left _ hx) hab))
        x₀ w this
    exact Relation.EqvGen.trans u c w huc (Relation.EqvGen.trans c x₀ w hcx hxw)
  have hdisc : ∀ a, discovered (mergedState s rid sid ridM sidM) a ↔ discovered s a := by
    intro a
    have hkeys : keysOf (mergedState s rid sid ridM sidM).matched = keysOf s.matched := by
      refine keysOf_setAll_of_subset _ _ _ ?_
      intro i hi
      have : alookup s.matched i = some sid := (hwf.consistent i sid).mpr ⟨sidM, hsidM, hi⟩
      exact (alookup_isSome_iff_mem_keys _ i).mp (by simp [this])
    rw [discovered, discovered, alookup_isSome_iff_mem_keys, alookup_isSome_iff_mem_keys, hkeys]
  refine ⟨merge_WF hwf hridM hsidM hne, ?_, ?_, ?_, ?_, ?_, ?_⟩
  · intro a
    rw [hdisc a, h.disc a, hE a]
  · intro a b
    constructor
    · intro hsc
      rcases hsc with ⟨hgrp, ha, hb⟩
      have haS : discovered s a := by
        rcases merge_matched_cases hwf hridM hsidM hne a hgrp ha with ⟨h1, _⟩ | ⟨_, h1⟩ <;>
          simp [discovered, h1]
      have hbS : discovered s b := by
        rcases merge_matched_cases hwf hridM hsidM hne b hgrp hb with ⟨h1, _⟩ | ⟨_, h1⟩ <;>
          simp [discovered, h1]
      have haE : a ∈ elemsOf comps ∨ a ∈ p ++ [c] := (hE a).mpr ((h.disc a).mp haS)
      have hbE : b ∈ elemsOf comps ∨ b ∈ p ++ [c] := (hE b).mpr ((h.disc b).mp hbS)
      refine ⟨haE, hbE, ?_⟩
      have hmono : ∀ u w, sameClass s u w → Relation.EqvGen (Rel comps (p ++ [c])) u w := by
        intro u w huw
        have := ((h.classes u w).mp huw).2.2
        exact eqvGen_lift (fun x y hxy =>
          Relation.EqvGen.rel x y (Rel_mono_p (fun z hz => List.mem_append_left _ hz) hxy))
          u w this
      have hbridge2 : ∀ u w, alookup s.matched u = some rid →
          alookup s.matched w = some sid → Relation.EqvGen (Rel comps (p ++ [c])) u w := by
        intro u w hu hw
        rcases hset with ⟨h1, h2⟩ | ⟨h1, h2⟩
        · exact Relation.EqvGen.symm _ _ (hbridge w u (h2 ▸ hw) (h1 ▸ hu))
        · exact hbridge u w (h1 ▸ hu) (h2 ▸ hw)
      rcases merge_matched_cases hwf hridM hsidM hne a hgrp ha with ⟨ha1, ha2⟩ | ⟨ha1, ha2⟩ <;>
        rcases merge_matched_cases hwf hridM hsidM hne b hgrp hb with ⟨hb1, hb2⟩ | ⟨hb1, hb2⟩
      · exact hmono a b ⟨hgrp, ha1, hb1⟩
      · exact hbridge2 a b (hb1 ▸ ha1) hb2
      · exact Relation.EqvGen.symm _ _ (hbridge2 b a (ha1 ▸ hb1) ha2)
      · exact hmono a b ⟨sid, ha2, hb2⟩
    · intro ⟨ha, hb, heqv⟩
      have hsub : ∀ x y, Rel comps (p ++ [c]) x y →
          sameClass (mergedState s rid sid ridM sidM) x y := by
        intro x y hxy
        rcases hxy with hco | ⟨hx, hy⟩
        · exact merge_sameClass_mono hwf hridM hsidM hne (coOccur_sameClass h hco)
        · exact ⟨rid, hptr x hx, hptr y hy⟩
      rcases eqvGen_to_sameClass hsub a b heqv with rfl | hsc
      · have : discovered (mergedState s rid sid ridM sidM) a :=
          (hdisc a).mpr ((h.disc a).mpr ((hE a).mp ha))
        rcases Option.isSome_iff_exists.mp this with ⟨g', hg'⟩
        exact ⟨g', hg', hg'⟩
      · exact hsc
  · intro hh; exact Option.noConfusion hh
  · intro r' hr'
    have : r' = rid := (Option.some.inj hr').symm
    rw [this, mergedState_groups, if_neg (Ne.symm hne), if_pos rfl]
    exact ⟨csUpdate ridM sidM, rfl⟩
  · intro r' x hr' hx
    have : r' = rid := (Option.some.inj hr').symm
    rw [this]
    exact hptr x hx
  · intro r' _
    simp

theorem seenNone_FInv (comps : List (List Nat)) (s : UFState) (g c : Nat)
    (h : FInv comps [] s none) (hc : alookup s.matched c = some g) :
    FInv comps [c] s (some g) := by
  have hcE : c ∈ elemsOf comps := by
    rcases (h.disc c).mp (by simp [discovered, hc]) with h1 | h1
    · exact h1
    · simp at h1
  refine ⟨h.wf, ?_, ?_, ?_, ?_, ?_, ?_⟩
  · intro a
    rw [h.disc a]
    constructor
    · intro ha
      rcases ha with ha | ha
      · exact Or.inl ha
      · simp at ha
    · intro ha
      rcases ha with ha | ha
      · exact Or.inl ha
      · have : a = c := by simpa using ha
        exact Or.inl (this ▸ hcE)
  · intro a b
    rw [h.classes a b]
    constructor
    · intro ⟨ha, hb, heqv⟩
      refine ⟨?_, ?_, ?_⟩
      · rcases ha with ha | ha
        · exact Or.inl ha
        · simp at ha
      · rcases hb with hb | hb
        · exact Or.inl hb
        · simp at hb
      · exact eqvGen_lift (fun x y hxy => Relation.EqvGen.rel x y
          (Rel_mono_p (fun z hz => by simp at hz) hxy)) a b heqv
    · intro ⟨ha, hb, heqv⟩
      have hsub : ∀ x y, Rel comps [c] x y → sameClass s x y := by
        intro x y hxy
        rcases hxy with hco | ⟨hx, hy⟩
        · exact coOccur_sameClass h hco
        · have hx : x = c := by simpa using hx
          have hy : y = c := by simpa using hy
          rw [hx, hy]
          exact ⟨g, hc, hc⟩
      rcases eqvGen_to_sameClass hsub a b heqv with rfl | hsc
      · have haE : a ∈ elemsOf comps := by
          rcases ha with h1 | h1
          · exact h1
          · have : a = c := by simpa using h1
            rw [this]; exact hcE
        exact (h.classes a a).mp (h.discAt (Or.inl haE))
      · exact h.classes a b |>.mp hsc
  · intro hh; exact Option.noConfusion hh
  · intro r' hr'
    have : r' = g := (Option.some.inj hr').symm
    subst this
    rcases (h.wf.consistent c r').mp hc with ⟨mem, hmem, _⟩
    exact ⟨mem, hmem⟩
  · intro r' x hr' hx
    have hrg : r' = g := (Option.some.inj hr').symm
    have hxc : x = c := by simpa using hx
    rw [hrg, hxc]
    exact hc
  · intro r' _
    simp

theorem seenSame_FInv (comps : List (List Nat)) (p : List Nat) (s : UFState) (r c : Nat)
    (h : FInv comps p s (some r)) (hc : alookup s.matched c = some r) :
    FInv comps (p ++ [c]) s (some r) := by
  have hcE : c ∈ elemsOf comps ∨ c ∈ p :=
    (h.disc c).mp (by simp [discovered, hc])
  have hE : ∀ a, (a ∈ elemsOf comps ∨ a ∈ p ++ [c]) ↔ (a ∈ elemsOf comps ∨ a ∈ p) := by
    intro a
    constructor
    · intro ha
      rcases ha with ha | ha
      · exact Or.inl ha
      · rcases List.mem_append.mp ha with ha | ha
        · exact Or.inr ha
        · exact (by simpa using ha : a = c) ▸ hcE
    · intro ha
      rcases ha with ha | ha
      · exact Or.inl ha
      · exact Or.inr (List.mem_append_left _ ha)
  have hptr : ∀ x, x ∈ p ++ [c] → alookup s.matched x = some r := by
    intro x hx
    rcases List.mem_append.mp hx with hx | hx
    · exact h.refPtr r x rfl hx
    · exact (by simpa using hx : x = c) ▸ hc
  refine ⟨h.wf, ?_, ?_, ?_, ?_, ?_, ?_⟩
  · intro a
    rw [h.disc a, ← hE a]
  · intro a b
    rw [h.classes a b]
    constructor
    · intro ⟨ha, hb, heqv⟩
      exact ⟨(hE a).mpr ha, (hE b).mpr hb,
        eqvGen_lift (fun x y hxy => Relation.EqvGen.rel x y
          (Rel_mono_p (fun z hz => List.mem_append_left _ hz) hxy)) a b heqv⟩
    · intro ⟨ha, hb, heqv⟩
      have hsub : ∀ x y, Rel comps (p ++ [c]) x y → sameClass s x y := by
        intro x y hxy
        rcases hxy with hco | ⟨hx, hy⟩
        · exact coOccur_sameClass h hco
        · exact ⟨r, hptr x hx, hptr y hy⟩
      rcases eqvGen_to_sameClass hsub a b heqv with rfl | hsc
      · exact h.classes a a |>.mp (h.discAt ((hE a).mp ha))
      · exact h.classes a b |>.mp hsc
  · intro hh; exact Option.noConfusion hh
  · intro r' hr'
    exact h.refLive r' hr'
  · intro r' x hr' hx
    have : r' = r := (Option.some.inj hr').symm
    exact this ▸ hptr x hx
  · intro r' _
    simp

theorem matched_values_lt {s : UFState} (hwf : WF s) (x h : Nat)
    (hx : alookup s.matched x = some h) : h < s.nextID := by
  rcases (hwf.consistent x h).mp hx with ⟨mem, hmem, _⟩
  exact hwf.idLt h ((alookup_isSome_iff_mem_keys _ h).mp (by simp [hmem]))

/-- The state after lines 87-95 when the first connector of a component is
fresh: a new group is created holding just `c`, with the next group id. -/
def newGroupState (s : UFState) (c : Nat) : UFState :=
  { matched := assocSet s.matched c s.nextID
    groups := assocSet s.groups s.nextID (csUpdate [] [c])
    nextID := s.nextID + 1 }

/-- The state after lines 93-95 when a fresh connector joins the existing
reference group `r`. -/
def joinGroupState (s : UFState) (c r : Nat) : UFState :=
  { matched := assocSet s.matched c r
    groups := assocSet s.groups r (csUpdate ((alookup s.groups r).getD []) [c])
    nextID := s.nextID }

theorem newNone_FInv (comps : List (List Nat)) (s : UFState) (c : Nat)
    (h : FInv comps [] s none) (hc : alookup s.matched c = none) :
    FInv comps [c] (newGroupState s c) (some s.nextID) := by
  show FInv comps [c]
    ⟨assocSet s.matched c s.nextID, assocSet s.groups s.nextID (csUpdate [] [c]),
      s.nextID + 1⟩ (some s.nextID)
  have hwf := h.wf
  have hcs : csUpdate [] [c] = [c] := by simp [csUpdate]
  have hmat : ∀ x, alookup (assocSet s.matched c s.nextID) x =
      if c = x then some s.nextID else alookup s.matched x := fun x => alookup_assocSet _ _ _ x
  have hgrp : ∀ x, alookup (assocSet s.groups s.nextID (csUpdate [] [c])) x =
      if s.nextID = x then some [c] else alookup s.groups x := by
    intro x; rw [alookup_assocSet, hcs]
  have hNotKey : ¬ s.nextID ∈ keysOf s.groups := by
    intro hmem
    exact lt_irrefl _ (hwf.idLt s.nextID hmem)
  refine ⟨⟨?_, ?_, ?_, ?_, ?_⟩, ?_, ?_, ?_, ?_, ?_, ?_⟩
  · exact nodup_keysOf_assocSet _ c _ hwf.matchedKeys
  · exact nodup_keysOf_assocSet _ s.nextID _ hwf.groupKeys
  · intro g mem hmem
    rw [hgrp g] at hmem
    by_cases hg : s.nextID = g
    · rw [if_pos hg] at hmem
      rw [← Option.some.inj hmem]
      simp
    · rw [if_neg hg] at hmem
      exact hwf.memNodup g mem hmem
  · intro x g
    rw [hmat x, hgrp g]
    by_cases hx : c = x
    · rw [if_pos hx]
      constructor
      · intro hg
        have : s.nextID = g := Option.some.inj hg
        rw [if_pos this]
        exact ⟨[c], rfl, by simp [hx]⟩
      · intro ⟨mem, hmem, hxmem⟩
        by_cases hg : s.nextID = g
        · exact hg ▸ rfl
        · rw [if_neg hg] at hmem
          have : alookup s.matched x = some g := (hwf.consistent x g).mpr ⟨mem, hmem, hxmem⟩
          rw [← hx] at this
          exact absurd (hc.symm.trans this) (by simp)
    · rw [if_neg hx]
      constructor
      · intro hg
        have hlt : g < s.nextID := matched_values_lt hwf x g hg
        rw [if_neg (Nat.ne_of_gt hlt)]
        exact (hwf.consistent x g).mp hg
      · intro ⟨mem, hmem, hxmem⟩
        by_cases hg : s.nextID = g
        · rw [if_pos hg] at hmem
          have hxl : x ∈ [c] := (Option.some.inj hmem) ▸ hxmem
          have hxceq : x = c := by simpa using hxl
          exact absurd hxceq.symm hx
        · rw [if_neg hg] at hmem
          exact (hwf.consistent x g).mpr ⟨mem, hmem, hxmem⟩
  · intro g hmem
    rw [show keysOf (assocSet s.groups s.nextID (csUpdate [] [c]))
        = keysOf s.groups ++ [s.nextID] from
        keysOf_assocSet_of_not_mem _ _ _ hNotKey] at hmem
    rcases List.mem_append.mp hmem with hmem | hmem
    · exact Nat.lt_succ_of_lt (hwf.idLt g hmem)
    · have : g = s.nextID := by simpa using hmem
      rw [this]; exact Nat.lt_succ_self _
  · intro a
    rw [discovered]
    rw [hmat a]
    by_cases hx : c = a
    · simp only [if_pos hx]
      constructor
      · intro _
        exact Or.inr (by simp [hx])
      · intro _; simp
    · simp only [if_neg hx]
      rw [← discovered, h.disc a]
      constructor
      · intro ha
        rcases ha with ha | ha
        · exact Or.inl ha
        · simp at ha
      · intro ha
        rcases ha with ha | ha
        · exact Or.inl ha
        · have : a = c := by simpa using ha
          exact absurd this.symm hx
  · intro a b
    constructor
    · intro ⟨g0, ha, hb⟩
      rw [hmat a] at ha
      rw [hmat b] at hb
      by_cases hac : c = a <;> by_cases hbc : c = b
      · refine ⟨Or.inr (by simp [hac]), Or.inr (by simp [hbc]), ?_⟩
        rw [← hac, ← hbc]
        exact Relation.EqvGen.refl c
      · rw [if_pos hac] at ha
        rw [if_neg hbc] at hb
        have hg0 : g0 = s.nextID := (Option.some.inj ha).symm
        have hlt : g0 < s.nextID := matched_values_lt hwf b g0 hb
        exact absurd hg0 (Nat.ne_of_lt hlt)
      · rw [if_neg hac] at ha
        rw [if_pos hbc] at hb
        have hg0 : g0 = s.nextID := (Option.some.inj hb).symm
        have hlt : g0 < s.nextID := matched_values_lt hwf a g0 ha
        exact absurd hg0 (Nat.ne_of_lt hlt)
      · rw [if_neg hac] at ha
        rw [if_neg hbc] at hb
        rcases (h.classes a b).mp ⟨g0, ha, hb⟩ with ⟨haE, hbE, heqv⟩
        refine ⟨?_, ?_, ?_⟩
        · rcases haE with h1 | h1
          · exact Or.inl h1
          · simp at h1
        · rcases hbE with h1 | h1
          · exact Or.inl h1
          · simp at h1
        · exact eqvGen_lift (fun x y hxy => Relation.EqvGen.rel x y
            (Rel_mono_p (fun z hz => by simp at hz) hxy)) a b heqv
    · intro ⟨ha, hb, heqv⟩
      have hsub : ∀ x y, Rel comps [c] x y →
          sameClass ⟨assocSet s.matched c s.nextID,
            assocSet s.groups s.nextID (csUpdate [] [c]), s.nextID + 1⟩ x y := by
        intro x y hxy
        rcases hxy with hco | ⟨hx, hy⟩
        · rcases coOccur_sameClass h hco with ⟨g0, hx0, hy0⟩
          have hxc : ¬ c = x := fun hh => by
            rw [← hh] at hx0; exact Option.noConfusion (hc.symm.trans hx0)
          have hyc : ¬ c = y := fun hh => by
            rw [← hh] at hy0; exact Option.noConfusion (hc.symm.trans hy0)
          refine ⟨g0, ?_, ?_⟩
          · rw [hmat x, if_neg hxc]; exact hx0
          · rw [hmat y, if_neg hyc]; exact hy0
        · have hx : x = c := by simpa using hx
          have hy : y = c := by simpa using hy
          rw [hx, hy]
          exact ⟨s.nextID, by rw [hmat c]; simp, by rw [hmat c]; simp⟩
      rcases eqvGen_to_sameClass hsub a b heqv with rfl | hsc
      · rcases ha with h1 | h1
        · rcases Option.isSome_iff_exists.mp ((h.disc a).mpr (Or.inl h1)) with ⟨g0, hg0⟩
          have hac : ¬ c = a := fun hh => by
            rw [← hh] at hg0; exact Option.noConfusion (hc.symm.trans hg0)
          exact ⟨g0, by rw [hmat a, if_neg hac]; exact hg0,
            by rw [hmat a, if_neg hac]; exact hg0⟩
        · have : a = c := by simpa using h1
          rw [this]
          exact ⟨s.nextID, by rw [hmat c]; simp, by rw [hmat c]; simp⟩
      · exact hsc
  · intro hh; exact Option.noConfusion hh
  · intro r' hr'
    have : r' = s.nextID := (Option.some.inj hr').symm
    rw [this, hgrp s.nextID, if_pos rfl]
    exact ⟨[c], rfl⟩
  · intro r' x hr' hx
    have h1 : r' = s.nextID := (Option.some.inj hr').symm
    have h2 : x = c := by simpa using hx
    rw [h1, h2, hmat c, if_pos rfl]
  · intro r' _
    simp

theorem newSome_FInv (comps : List (List Nat)) (p : List Nat) (s : UFState) (r c : Nat)
    (h : FInv comps p s (some r)) (hc : alookup s.matched c = none) :
    FInv comps (p ++ [c]) (joinGroupState s c r) (some r) := by
  have hwf := h.wf
  rcases h.refLive r rfl with ⟨rM, hrM⟩
  have hgetD : (alookup s.groups r).getD [] = rM := by rw [hrM]; rfl
  show FInv comps (p ++ [c])
    ⟨assocSet s.matched c r,
      assocSet s.groups r (csUpdate ((alookup s.groups r).getD []) [c]), s.nextID⟩ (some r)
  rw [hgetD]
  have hmat : ∀ x, alookup (assocSet s.matched c r) x =
      if c = x then some r else alookup s.matched x := fun x => alookup_assocSet _ _ _ x
  have hgrp : ∀ x, alookup (assocSet s.groups r (csUpdate rM [c])) x =
      if r = x then some (csUpdate rM [c]) else alookup s.groups x :=
    fun x => alookup_assocSet _ _ _ x
  have hE : ∀ a, (a ∈ elemsOf comps ∨ a ∈ p ++ [c]) ↔
      ((a ∈ elemsOf comps ∨ a ∈ p) ∨ a = c) := by
    intro a
    constructor
    · intro ha
      rcases ha with ha | ha
      · exact Or.inl (Or.inl ha)
      · rcases List.mem_append.mp ha with ha | ha
        · exact Or.inl (Or.inr ha)
        · exact Or.inr (by simpa using ha)
    · intro ha
      rcases ha with (ha | ha) | ha
      · exact Or.inl ha
      · exact Or.inr (List.mem_append_left _ ha)
      · exact Or.inr (List.mem_append_right _ (by simp [ha]))
  have hdiscOld : ∀ a, a ∈ elemsOf comps ∨ a ∈ p → ¬ a = c := by
    intro a ha hac
    have := (h.disc a).mpr ha
    rw [hac, discovered, hc] at this
    simp at this
  have hptr : ∀ x, x ∈ p ++ [c] → alookup (assocSet s.matched c r) x = some r := by
    intro x hx
    rcases List.mem_append.mp hx with hx | hx
    · have hxr : alookup s.matched x = some r := h.refPtr r x rfl hx
      have hxc : ¬ c = x := fun hh => by
        rw [← hh] at hxr; exact Option.noConfusion (hc.symm.trans hxr)
      rw [hmat x, if_neg hxc]; exact hxr
    · have : x = c := by simpa using hx
      rw [hmat x, if_pos this.symm]
  have hmono : ∀ u w, sameClass s u w → Relation.EqvGen (Rel comps (p ++ [c])) u w := by
    intro u w huw
    have := ((h.classes u w).mp huw).2.2
    exact eqvGen_lift (fun x y hxy => Relation.EqvGen.rel x y
      (Rel_mono_p (fun z hz => List.mem_append_left _ hz) hxy)) u w this
  have hsame_pres : ∀ u w, sameClass s u w →
      sameClass (⟨assocSet s.matched c r,
        assocSet s.groups r (csUpdate rM [c]), s.nextID⟩ : UFState) u w := by
    intro u w ⟨g0, hu, hw⟩
    have huc : ¬ c = u := fun hh => by
      rw [← hh] at hu; exact Option.noConfusion (hc.symm.trans hu)
    have hwc : ¬ c = w := fun hh => by
      rw [← hh] at hw; exact Option.noConfusion (hc.symm.trans hw)
    exact ⟨g0, by rw [hmat u, if_neg huc]; exact hu,
      by rw [hmat w, if_neg hwc]; exact hw⟩
  refine ⟨⟨?_, ?_, ?_, ?_, ?_⟩, ?_, ?_, ?_, ?_, ?_, ?_⟩
  · exact nodup_keysOf_assocSet _ c _ hwf.matchedKeys
  · exact nodup_keysOf_assocSet _ r _ hwf.groupKeys
  · intro g mem hmem
    rw [hgrp g] at hmem
    by_cases hg : r = g
    · rw [if_pos hg] at hmem
      rw [← Option.some.inj hmem]
      exact nodup_csUpdate _ _ (hwf.memNodup r rM hrM) (by simp)
    · rw [if_neg hg] at hmem
      exact hwf.memNodup g mem hmem
  · intro x g
    rw [hmat x, hgrp g]
    by_cases hx : c = x
    · rw [if_pos hx]
      constructor
      · intro hg
        have hgr : r = g := Option.some.inj hg
        rw [if_pos hgr]
        exact ⟨csUpdate rM [c], rfl, (mem_csUpdate _ _ x).mpr (Or.inr (by simp [hx]))⟩
      · intro ⟨mem, hmem, hxmem⟩
        by_cases hg : r = g
        · exact hg ▸ rfl
        · rw [if_neg hg] at hmem
          have : alookup s.matched x = some g := (hwf.consistent x g).mpr ⟨mem, hmem, hxmem⟩
          rw [← hx] at this
          exact absurd (hc.symm.trans this) (by simp)
    · rw [if_neg hx]
      constructor
      · intro hg
        rcases (hwf.consistent x g).mp hg with ⟨mem, hmem, hxmem⟩
        by_cases hgr : r = g
        · rw [if_pos hgr]
          refine ⟨csUpdate rM [c], rfl, (mem_csUpdate _ _ x).mpr (Or.inl ?_)⟩
          have : mem = rM := by
            rw [← hgr] at hmem
            exact Option.some.inj (hmem.symm.trans hrM)
          exact this ▸ hxmem
        · rw [if_neg hgr]
          exact ⟨mem, hmem, hxmem⟩
      · intro ⟨mem, hmem, hxmem⟩
        by_cases hgr : r = g
        · rw [if_pos hgr] at hmem
          have hmm : mem = csUpdate rM [c] := Option.some.inj hmem.symm
          rcases (mem_csUpdate _ _ x).mp (hmm ▸ hxmem) with hxr | hxc
          · rw [← hgr]
            exact (hwf.consistent x r).mpr ⟨rM, hrM, hxr⟩
          · have hxceq : x = c := by simpa using hxc
            exact absurd hxceq.symm hx
        · rw [if_neg hgr] at hmem
          exact (hwf.consistent x g).mpr ⟨mem, hmem, hxmem⟩
  · intro g hmem
    have hrKey : r ∈ keysOf s.groups :=
      (alookup_isSome_iff_mem_keys _ r).mp (by simp [hrM])
    rw [keysOf_assocSet_of_mem _ r _ hrKey] at hmem
    exact hwf.idLt g hmem
  · intro a
    rw [discovered]
    rw [hmat a]
    by_cases hx : c = a
    · rw [if_pos hx]
      simp only [Option.isSome_some, true_iff]
      exact (hE a).mpr (Or.inr hx.symm)
    · rw [if_neg hx]
      rw [← discovered, h.disc a, hE a]
      constructor
      · intro ha; exact Or.inl ha
      · intro ha
        rcases ha with ha | ha
        · exact ha
        · exact absurd ha.symm hx
  · intro a b
    constructor
    · intro ⟨g0, ha, hb⟩
      rw [hmat a] at ha
      rw [hmat b] at hb
      by_cases hac : c = a <;> by_cases hbc : c = b
      · refine ⟨(hE a).mpr (Or.inr hac.symm), (hE b).mpr (Or.inr hbc.symm), ?_⟩
        rw [← hac, ← hbc]
        exact Relation.EqvGen.refl c
      · rw [if_pos hac] at ha
        rw [if_neg hbc] at hb
        have hg0 : g0 = r := (Option.some.inj ha).symm
        have hbr : alookup s.matched b = some r := hg0 ▸ hb
        have hbE : b ∈ elemsOf comps ∨ b ∈ p := (h.disc b).mp (by simp [discovered, hbr])
        refine ⟨(hE a).mpr (Or.inr hac.symm), (hE b).mpr (Or.inl hbE), ?_⟩
        rcases List.exists_mem_of_ne_nil p (h.refNe r rfl) with ⟨x₀, hx₀⟩
        have hcx : Relation.EqvGen (Rel comps (p ++ [c])) a x₀ := by
          rw [← hac]
          exact Relation.EqvGen.rel c x₀ (Or.inr ⟨by simp, List.mem_append_left _ hx₀⟩)
        have hxb : Relation.EqvGen (Rel comps (p ++ [c])) x₀ b :=
          hmono x₀ b ⟨r, h.refPtr r x₀ rfl hx₀, hbr⟩
        exact Relation.EqvGen.trans a x₀ b hcx hxb
      · rw [if_neg hac] at ha
        rw [if_pos hbc] at hb
        have hg0 : g0 = r := (Option.some.inj hb).symm
        have har : alookup s.matched a = some r := hg0 ▸ ha
        have haE : a ∈ elemsOf comps ∨ a ∈ p := (h.disc a).mp (by simp [discovered, har])
        refine ⟨(hE a).mpr (Or.inl haE), (hE b).mpr (Or.inr hbc.symm), ?_⟩
        rcases List.exists_mem_of_ne_nil p (h.refNe r rfl) with ⟨x₀, hx₀⟩
        have hax : Relation.EqvGen (Rel comps (p ++ [c])) a x₀ :=
          hmono a x₀ ⟨r, har, h.refPtr r x₀ rfl hx₀⟩
        have hxb : Relation.EqvGen (Rel comps (p ++ [c])) x₀ b := by
          rw [← hbc]
          exact Relation.EqvGen.symm _ _
            (Relation.EqvGen.rel c x₀ (Or.inr ⟨by simp, List.mem_append_left _ hx₀⟩))
        exact Relation.EqvGen.trans a x₀ b hax hxb
      · rw [if_neg hac] at ha
        rw [if_neg hbc] at hb
        rcases (h.classes a b).mp ⟨g0, ha, hb⟩ with ⟨haE, hbE, heqv⟩
        exact ⟨(hE a).mpr (Or.inl haE), (hE b).mpr (Or.inl hbE),
          eqvGen_lift (fun x y hxy => Relation.EqvGen.rel x y
            (Rel_mono_p (fun z hz => List.mem_append_left _ hz) hxy)) a b heqv⟩
    · intro ⟨ha, hb, heqv⟩
      have hsub : ∀ x y, Rel comps (p ++ [c]) x y →
          sameClass (⟨assocSet s.matched c r,
            assocSet s.groups r (csUpdate rM [c]), s.nextID⟩ : UFState) x y := by
        intro x y hxy
        rcases hxy with hco | ⟨hx, hy⟩
        · exact hsame_pres x y (coOccur_sameClass h hco)
        · exact ⟨r, hptr x hx, hptr y hy⟩
      rcases eqvGen_to_sameClass hsub a b heqv with rfl | hsc
      · rcases (hE a).mp ha with haE | hac
        · exact hsame_pres a a (h.discAt haE)
        · refine ⟨r, ?_, ?_⟩ <;> rw [hmat a, if_pos hac.symm]
      · exact hsc
  · intro hh; exact Option.noConfusion hh
  · intro r' hr'
    have : r' = r := (Option.some.inj hr').symm
    rw [this, hgrp r, if_pos rfl]
    exact ⟨csUpdate rM [c], rfl⟩
  · intro r' x hr' hx
    have : r' = r := (Option.some.inj hr').symm
    rw [this]
    exact hptr x hx
  · intro r' _
    simp

theorem stepConn_FInv (comps : List (List Nat)) (p : List Nat) (s : UFState)
    (ref : Option Nat) (c : Nat) (h : FInv comps p s ref) :
    FInv comps (p ++ [c]) (stepConn s ref c).1 (stepConn s ref c).2 := by
  cases hm : alookup s.matched c with
  | some g =>
      cases ref with
      | none =>
          have hp : p = [] := h.refNone rfl
          subst hp
          have hs : stepConn s none c = (s, some g) := by simp [stepConn, hm]
          rw [hs]
          exact seenNone_FInv comps s g c h hm
      | some r =>
          by_cases hgr : g = r
          · subst hgr
            have hs : stepConn s (some g) c = (s, some g) := by simp [stepConn, hm]
            rw [hs]
            exact seenSame_FInv comps p s g c h hm
          · rcases h.refLive r rfl with ⟨rM, hrM⟩
            rcases (h.wf.consistent c g).mp hm with ⟨gM, hgM, _⟩
            rw [stepConn_merge_eq s r g c hm hgr]
            have hr' : (alookup s.groups r).getD [] = rM := by rw [hrM]; rfl
            have hg' : (alookup s.groups g).getD [] = gM := by rw [hgM]; rfl
            rw [hr', hg']
            by_cases hlen : rM.length < gM.length
            · rw [if_pos hlen]
              exact merge_FInv comps p s r g c g r gM rM h hm hgr hgM hrM
                (Or.inr ⟨rfl, rfl⟩)
            · rw [if_neg hlen]
              exact merge_FInv comps p s r g c r g rM gM h hm hgr hrM hgM
                (Or.inl ⟨rfl, rfl⟩)
  | none =>
      cases ref with
      | none =>
          have hp : p = [] := h.refNone rfl
          subst hp
          have hs : stepConn s none c = (newGroupState s c, some s.nextID) := by
            simp [stepConn, hm, newGroupState]
          rw [hs]
          exact newNone_FInv comps s c h hm
      | some r =>
          have hs : stepConn s (some r) c = (joinGroupState s c r, some r) := by
            simp [stepConn, hm, joinGroupState]
          rw [hs]
          exact newSome_FInv comps p s r c h hm

theorem foldConn_FInv (comps : List (List Nat)) :
    ∀ (rest p : List Nat) (s : UFState) (ref : Option Nat), FInv comps p s ref →
      FInv comps (p ++ rest)
        (rest.foldl (fun q c => stepConn q.1 q.2 c) (s, ref)).1
        (rest.foldl (fun q c => stepConn q.1 q.2 c) (s, ref)).2 := by
  intro rest
  induction rest with
  | nil =>
      intro p s ref h
      simpa using h
  | cons c cs ih =>
      intro p s ref h
      have hstep := stepConn_FInv comps p s ref c h
      have hrec := ih (p ++ [c]) (stepConn s ref c).1 (stepConn s ref c).2 hstep
      rw [show p ++ c :: cs = (p ++ [c]) ++ cs by simp]
      simp only [List.foldl_cons]
      exact hrec

theorem coOccur_append_singleton (comps : List (List Nat)) (comp : List Nat) (a b : Nat) :
    coOccur (comps ++ [comp]) a b ↔ coOccur comps a b ∨ (a ∈ comp ∧ b ∈ comp) := by
  constructor
  · intro ⟨l, hl, ha, hb⟩
    rcases List.mem_append.mp hl with hl | hl
    · exact Or.inl ⟨l, hl, ha, hb⟩
    · have : l = comp := by simpa using hl
      exact Or.inr ⟨this ▸ ha, this ▸ hb⟩
  · intro hab
    rcases hab with ⟨l, hl, ha, hb⟩ | ⟨ha, hb⟩
    · exact ⟨l, List.mem_append_left _ hl, ha, hb⟩
    · exact ⟨comp, List.mem_append_right _ (by simp), ha, hb⟩

theorem elemsOf_append_singleton (comps : List (List Nat)) (comp : List Nat) (a : Nat) :
    a ∈ elemsOf (comps ++ [comp]) ↔ a ∈ elemsOf comps ∨ a ∈ comp := by
  simp [elemsOf]

theorem compDone_Inv (comps : List (List Nat)) (comp : List Nat) (s' : UFState)
    (ref' : Option Nat) (h : FInv comps comp s' ref') :
    FInv (comps ++ [comp]) [] s' none := by
  have hrel : ∀ a b, Rel (comps ++ [comp]) [] a b ↔ Rel comps comp a b := by
    intro a b
    rw [Rel, Rel, coOccur_append_singleton]
    constructor
    · intro hab
      rcases hab with (hab | hab) | ⟨ha, _⟩
      · exact Or.inl hab
      · exact Or.inr hab
      · simp at ha
    · intro hab
      rcases hab with hab | hab
      · exact Or.inl (Or.inl hab)
      · exact Or.inl (Or.inr hab)
  refine ⟨h.wf, ?_, ?_, ?_, ?_, ?_, ?_⟩
  · intro a
    rw [h.disc a, elemsOf_append_singleton]
    simp
  · intro a b
    rw [h.classes a b]
    constructor
    · intro ⟨ha, hb, heqv⟩
      refine ⟨?_, ?_, ?_⟩
      · rw [elemsOf_append_singleton]; simp; exact ha
      · rw [elemsOf_append_singleton]; simp; exact hb
      · exact eqvGen_lift (fun x y hxy =>
          Relation.EqvGen.rel x y ((hrel x y).mpr hxy)) a b heqv
    · intro ⟨ha, hb, heqv⟩
      refine ⟨?_, ?_, ?_⟩
      · have := (elemsOf_append_singleton comps comp a).mp (by simpa using ha)
        exact this
      · have := (elemsOf_append_singleton comps comp b).mp (by simpa using hb)
        exact this
      · exact eqvGen_lift (fun x y hxy =>
          Relation.EqvGen.rel x y ((hrel x y).mp hxy)) a b heqv
  · intro _; rfl
  · intro r hr; exact Option.noConfusion hr
  · intro r x hr; exact absurd hr (by simp)
  · intro r hr; exact Option.noConfusion hr

theorem init_Inv : FInv [] [] ⟨[], [], 0⟩ none := by
  refine ⟨⟨?_, ?_, ?_, ?_, ?_⟩, ?_, ?_, ?_, ?_, ?_, ?_⟩
  · simp [keysOf_nil]
  · simp [keysOf_nil]
  · intro g mem hmem; exact Option.noConfusion hmem
  · intro x g
    constructor
    · intro hg; exact Option.noConfusion hg
    · intro ⟨mem, hmem, _⟩; exact Option.noConfusion hmem
  · intro g hmem; simp [keysOf_nil] at hmem
  · intro a; simp [discovered, alookup, elemsOf]
  · intro a b
    constructor
    · intro ⟨g, ha, _⟩; exact Option.noConfusion ha
    · intro ⟨ha, _, _⟩
      rcases ha with ha | ha
      · simp [elemsOf] at ha
      · simp at ha
  · intro _; rfl
  · intro r hr; exact Option.noConfusion hr
  · intro r x hr; exact absurd hr (by simp)
  · intro r hr; exact Option.noConfusion hr

theorem collect_Inv (comps : List (List Nat)) :
    FInv comps [] (collectConnectors comps) none := by
  suffices h : ∀ (rest pre : List (List Nat)) (s : UFState), FInv pre [] s none →
      FInv (pre ++ rest) [] (rest.foldl stepComp s) none by
    simpa using h comps [] ⟨[], [], 0⟩ init_Inv
  intro rest
  induction rest with
  | nil =>
      intro pre s hs
      simpa using hs
  | cons comp cs ih =>
      intro pre s hs
      have h1 : FInv pre comp (stepComp s comp)
          ((comp.foldl (fun q c => stepConn q.1 q.2 c) (s, none)).2) := by
        have := foldConn_FInv pre comp [] s none hs
        simpa [stepComp] using this
      have h2 : FInv (pre ++ [comp]) [] (stepComp s comp) none :=
        compDone_Inv pre comp _ _ h1
      have h3 := ih (pre ++ [comp]) (stepComp s comp) h2
      rw [show (pre ++ [comp]) ++ cs = pre ++ comp :: cs by simp] at h3
      simpa using h3

theorem Rel_nil_iff (comps : List (List Nat)) (a b : Nat) :
    Rel comps [] a b ↔ coOccur comps a b := by
  constructor
  · intro h
    rcases h with h | ⟨h, _⟩
    · exact h
    · simp at h
  · exact Or.inl

/-- C1: for every model traversal, the equivalence classes produced by
`_collect_connectors` are exactly the transitive closure of the
"appeared together in one constraint or connection" relation; the groups
partition the discovered connectors; the outcome is independent of the
order of the components; and a merge folds the smaller class into the
larger, repointing every member of the smaller class and deleting its
record. -/
theorem collect_connectors_correct (comps : List (List Nat)) :
    (∀ a b, a ∈ elemsOf comps → b ∈ elemsOf comps →
      (sameClass (collectConnectors comps) a b ↔
        Relation.EqvGen (coOccur comps) a b))
    ∧ (∀ a, a ∈ elemsOf comps ↔ discovered (collectConnectors comps) a)
    ∧ (∀ a g, alookup (collectConnectors comps).matched a = some g →
        ∃ mem, alookup (collectConnectors comps).groups g = some mem ∧ a ∈ mem)
    ∧ (∀ g1 g2 mem1 mem2 a, alookup (collectConnectors comps).groups g1 = some mem1 →
        alookup (collectConnectors comps).groups g2 = some mem2 →
        a ∈ mem1 → a ∈ mem2 → g1 = g2)
    ∧ (∀ comps2, (∀ l, l ∈ comps ↔ l ∈ comps2) → ∀ a b,
        (sameClass (collectConnectors comps) a b ↔
          sameClass (collectConnectors comps2) a b))
    ∧ (∀ (s : UFState) (r g c : Nat) (rM gM : List Nat), WF s →
        alookup s.matched c = some g → g ≠ r →
        alookup s.groups r = some rM → alookup s.groups g = some gM →
        (if rM.length < gM.length
         then alookup (stepConn s (some r) c).1.groups r = none ∧
              rM.length ≤ gM.length ∧
              (∀ i, i ∈ rM → alookup (stepConn s (some r) c).1.matched i = some g) ∧
              alookup (stepConn s (some r) c).1.groups g = some (csUpdate gM rM) ∧
              (stepConn s (some r) c).2 = some g
         else alookup (stepConn s (some r) c).1.groups g = none ∧
              gM.length ≤ rM.length ∧
              (∀ i, i ∈ gM → alookup (stepConn s (some r) c).1.matched i = some r) ∧
              alookup (stepConn s (some r) c).1.groups r = some (csUpdate rM gM) ∧
              (stepConn s (some r) c).2 = some r)) := by
  have hInv := collect_Inv comps
  refine ⟨?_, ?_, ?_, ?_, ?_, ?_⟩
  · intro a b ha hb
    rw [hInv.classes a b]
    constructor
    · intro ⟨_, _, heqv⟩
      exact eqvGen_lift (fun x y hxy =>
        Relation.EqvGen.rel x y ((Rel_nil_iff comps x y).mp hxy)) a b heqv
    · intro heqv
      exact ⟨Or.inl ha, Or.inl hb,
        eqvGen_lift (fun x y hxy =>
          Relation.EqvGen.rel x y ((Rel_nil_iff comps x y).mpr hxy)) a b heqv⟩
  · intro a
    rw [hInv.disc a]
    simp
  · intro a g hg
    exact (hInv.wf.consistent a g).mp hg
  · intro g1 g2 mem1 mem2 a h1 h2 ha1 ha2
    have hg1 : alookup (collectConnectors comps).matched a = some g1 :=
      (hInv.wf.consistent a g1).mpr ⟨mem1, h1, ha1⟩
    have hg2 : alookup (collectConnectors comps).matched a = some g2 :=
      (hInv.wf.consistent a g2).mpr ⟨mem2, h2, ha2⟩
    exact Option.some.inj (hg1.symm.trans hg2)
  · intro comps2 hiff a b
    have hInv2 := collect_Inv comps2
    have hElem : ∀ x, x ∈ elemsOf comps ↔ x ∈ elemsOf comps2 := by
      intro x
      simp only [elemsOf, List.mem_flatten]
      constructor
      · intro ⟨l, hl, hx⟩; exact ⟨l, (hiff l).mp hl, hx⟩
      · intro ⟨l, hl, hx⟩; exact ⟨l, (hiff l).mpr hl, hx⟩
    have hco : ∀ x y, coOccur comps x y ↔ coOccur comps2 x y := by
      intro x y
      constructor
      · intro ⟨l, hl, hx, hy⟩; exact ⟨l, (hiff l).mp hl, hx, hy⟩
      · intro ⟨l, hl, hx, hy⟩; exact ⟨l, (hiff l).mpr hl, hx, hy⟩
    rw [hInv.classes a b, hInv2.classes a b]
    constructor
    · intro ⟨ha, hb, heqv⟩
      refine ⟨?_, ?_, ?_⟩
      · rcases ha with ha | ha
        · exact Or.inl ((hElem a).mp ha)
        · simp at ha
      · rcases hb with hb | hb
        · exact Or.inl ((hElem b).mp hb)
        · simp at hb
      · exact eqvGen_lift (fun x y hxy => Relation.EqvGen.rel x y
          ((Rel_nil_iff comps2 x y).mpr ((hco x y).mp ((Rel_nil_iff comps x y).mp hxy))))
          a b heqv
    · intro ⟨ha, hb, heqv⟩
      refine ⟨?_, ?_, ?_⟩
      · rcases ha with ha | ha
        · exact Or.inl ((hElem a).mpr ha)
        · simp at ha
      · rcases hb with hb | hb
        · exact Or.inl ((hElem b).mpr hb)
        · simp at hb
      · exact eqvGen_lift (fun x y hxy => Relation.EqvGen.rel x y
          ((Rel_nil_iff comps x y).mpr ((hco x y).mpr ((Rel_nil_iff comps2 x y).mp hxy))))
          a b heqv
  · intro s r g c rM gM hwf hm hgr hrM hgM
    rw [stepConn_merge_eq s r g c hm hgr]
    have hr' : (alookup s.groups r).getD [] = rM := by rw [hrM]; rfl
    have hg' : (alookup s.groups g).getD [] = gM := by rw [hgM]; rfl
    rw [hr', hg']
    by_cases hlen : rM.length < gM.length
    · rw [if_pos hlen, if_pos hlen]
      have hne : g ≠ r := hgr
      refine ⟨?_, le_of_lt hlen, ?_, ?_, rfl⟩
      · rw [show ((mergedState s g r gM rM, some g) : UFState × Option Nat).1
            = mergedState s g r gM rM from rfl, mergedState_groups, if_pos rfl]
      · intro i hi
        rw [show ((mergedState s g r gM rM, some g) : UFState × Option Nat).1
            = mergedState s g r gM rM from rfl, mergedState_matched, if_pos hi]
      · rw [show ((mergedState s g r gM rM, some g) : UFState × Option Nat).1
            = mergedState s g r gM rM from rfl, mergedState_groups,
          if_neg (show ¬ r = g from fun hh => hgr hh.symm), if_pos rfl]
    · rw [if_neg hlen, if_neg hlen]
      refine ⟨?_, le_of_not_lt hlen, ?_, ?_, rfl⟩
      · rw [show ((mergedState s r g rM gM, some r) : UFState × Option Nat).1
            = mergedState s r g rM gM from rfl, mergedState_groups, if_pos rfl]
      · intro i hi
        rw [show ((mergedState s r g rM gM, some r) : UFState × Option Nat).1
            = mergedState s r g rM gM from rfl, mergedState_matched, if_pos hi]
      · rw [show ((mergedState s r g rM gM, some r) : UFState × Option Nat).1
            = mergedState s r g rM gM from rfl, mergedState_groups,
          if_neg (show ¬ g = r from hgr), if_pos rfl]

/-- Witness for C1 at a concrete model: components `[1,2]`, `[3,4]`, `[2,3]`
place 1 and 4 in one class via the transitive closure. -/
theorem collect_connectors_correct_witness :
    sameClass (collectConnectors [[1, 2], [3, 4], [2, 3]]) 1 4 :=
  ((collect_connectors_correct [[1, 2], [3, 4], [2, 3]]).1 1 4 (by decide) (by decide)).mpr
    (Relation.EqvGen.trans 1 2 4
      (Relation.EqvGen.rel 1 2 ⟨[1, 2], by decide, by decide, by decide⟩)
      (Relation.EqvGen.trans 2 3 4
        (Relation.EqvGen.rel 2 3 ⟨[2, 3], by decide, by decide, by decide⟩)
        (Relation.EqvGen.rel 3 4 ⟨[3, 4], by decide, by decide, by decide⟩)))

/-! ## Connector data model

A `VarData` embeds the attributes of a Pyomo variable (or `VarList`) that
`_validate_and_expand_connector_set` reads: whether it is indexed, its index
set, the optional `domain` and `bounds` attributes (`none` embeds a missing
attribute, i.e. the `AttributeError` branch of the `try`/`except`), and the
per-index domain/bounds of an indexed variable.  A `Conn` embeds a
`_ConnectorData`: its `vars` dict (field name to variable or `None`), its
`aggregators` keys, its `extensives` dict (extensive type to field names),
its local and fully qualified names and its parent block. -/

structure ElemData where
  dom : Int
  lb : Option Int
  ub : Option Int
deriving DecidableEq

structure VarData where
  indexed : Bool
  idxSet : List Nat
  domain : Option Int
  bounds : Option (Option Int × Option Int)
  elems : List (Nat × ElemData)
deriving DecidableEq

structure Conn where
  cid : Nat
  name : String
  fq : String
  parent : Nat
  vars : List (String × Option VarData)
  aggregators : List String
  extensives : List (String × List String)
deriving DecidableEq

/-- The shape code of lines 124-128 / 160-164: `-2` for an aggregator field,
`-1` for a non-indexed variable, `len(v)` for an indexed one.  (The `-3 if v
is None` arm on line 161 is unreachable: the `None` case was already handled
by `continue` on line 159.) -/
def lenCode (c : Conn) (k : String) (v : VarData) : Int :=
  if k ∈ c.aggregators then -2
  else if v.indexed = false then -1
  else (v.idxSet.length : Int)

/-- An entry of the canonical field reference: `(v, _len, c)`. -/
abbrev RefEntry : Type := VarData × Int × Conn

/-- Lines 116-129: scan one connector's `vars` dict, adding each new
assigned field to the reference. -/
def addVarsToRef (c : Conn) : List (String × Option VarData) →
    List (String × RefEntry) → List (String × RefEntry)
  | [], ref => ref
  | (k, v?) :: rest, ref =>
      addVarsToRef c rest
        (if (alookup ref k).isSome then ref
         else match v? with
           | none => ref
           | some v => ref ++ [(k, (v, lenCode c k v, c))])

def buildRefFrom : List Conn → List (String × RefEntry) → List (String × RefEntry)
  | [], ref => ref
  | c :: rest, ref => buildRefFrom rest (addVarsToRef c c.vars ref)

/-- Lines 113-129: the canonical field reference of a connector set. -/
def buildRef (conns : List Conn) : List (String × RefEntry) :=
  buildRefFrom conns []

/-- The `ValueError`s of lines 150-181, with the data interpolated into the
respective messages. -/
inductive VErr where
  | missingVar (conn field refConn : String)
  | mixed (field refConn conn : String)
  | idxCount (field : String) (refLen : Int) (refConn : String) (thisLen : Int)
      (conn : String)
  | mismatchedIdx (field refConn conn : String)
deriving DecidableEq

/-- `a ^ b` on index sets (symmetric difference), as a list. -/
def symmDiff (a b : List Nat) : List Nat :=
  a.filter (fun x => ¬ x ∈ b) ++ b.filter (fun x => ¬ x ∈ a)

/-- Lines 148-181: check one connector against every canonical field,
returning whether the connector is a candidate for synthesis because some
field is unassigned. -/
def checkFields (c : Conn) : List (String × RefEntry) → Bool → Except VErr Bool
  | [], part => .ok part
  | (k, e) :: rest, part =>
      match alookup c.vars k with
      | none => .error (.missingVar c.name k e.2.2.name)
      | some none => checkFields c rest true
      | some (some v) =>
          if (decide (0 ≤ lenCode c k v)) ≠ (decide (0 ≤ e.2.1)) then
            .error (.mixed k e.2.2.name c.name)
          else if 0 ≤ lenCode c k v ∧ lenCode c k v ≠ e.2.1 then
            .error (.idxCount k e.2.1 e.2.2.name (lenCode c k v) c.name)
          else if 0 ≤ e.2.1 ∧ (symmDiff e.1.idxSet v.idxSet).length ≠ 0 then
            .error (.mismatchedIdx k e.2.2.name c.name)
          else checkFields c rest part

/-- Lines 139-181: validate every connector of the set, collecting the
empty-or-unassigned ones in connector order. -/
def checkAll (ref : List (String × RefEntry)) : List Conn → Except VErr (List Conn)
  | [] => .ok []
  | c :: rest =>
      if c.vars.isEmpty then
        match checkAll ref rest with
        | .error e => .error e
        | .ok l => .ok (c :: l)
      else
        match checkFields c ref false with
        | .error e => .error e
        | .ok part =>
            match checkAll ref rest with
            | .error e => .error e
            | .ok l => .ok (if part then c :: l else l)

def elemAt (v : VarData) (i : Nat) : ElemData :=
  (alookup v.elems i).getD ⟨0, none, none⟩

/-- Lines 200-221: the freshly created `Var`: indexed over the canonical
index set when the canonical shape code is nonnegative, scalar otherwise;
`domain`/`bounds` copied from the canonical variable when the attribute is
present; for an indexed variable, per-element domain and bounds copied from
the canonical elements. -/
def newAutoVar (e : RefEntry) : VarData :=
  if 0 ≤ e.2.1 then
    { indexed := true, idxSet := e.1.idxSet, domain := e.1.domain,
      bounds := e.1.bounds,
      elems := e.1.idxSet.map (fun i => (i, elemAt e.1 i)) }
  else
    { indexed := false, idxSet := [], domain := e.1.domain,
      bounds := e.1.bounds, elems := [] }

/-- A component added to a block by `block.add_component(vname, new_var)`. -/
structure Created where
  blockId : Nat
  vname : String
  var : VarData
deriving DecidableEq

/-- Lines 195-222 for one connector: walk the sorted reference and fill in
every field that is absent or `None`, naming the new variable
`<fq>.auto.<field>` and attaching it to the connector's parent block. -/
def fillStep (c : Conn) (made : List Created) (kv : String × RefEntry) :
    Conn × List Created :=
  match alookup c.vars kv.1 with
  | some (some _) => (c, made)
  | _ =>
      ({ c with vars := assocSet c.vars kv.1 (some (newAutoVar kv.2)) },
       made ++ [⟨c.parent, c.fq ++ ".auto." ++ kv.1, newAutoVar kv.2⟩])

def fillConn (sref : List (String × RefEntry)) (c : Conn) : Conn × List Created :=
  sref.foldl (fun acc kv => fillStep acc.1 acc.2 kv) (c, [])

structure ExpandResult where
  ref : List (String × RefEntry)
  conns : List Conn
  created : List Created
  warnings : List String
deriving DecidableEq

/-- The warning of lines 132-135, naming the connectors in sorted order. -/
def warnEmpty (conns : List Conn) : String :=
  "Cannot identify a reference connector: no connectors in the connector "
    ++ "set have assigned variables: "
    ++ String.intercalate ", " (sortByKey id (conns.map (fun c => c.name)))

/-- `_ConnExpansion._validate_and_expand_connector_set` (lines 112-224):
build the canonical reference, warn and return the empty reference when no
field is assigned anywhere, validate every connector, sort the reference by
field name and the empty-or-unassigned connectors by fully qualified name,
and synthesize the missing variables. -/
def validateAndExpand (conns : List Conn) : Except VErr ExpandResult :=
  let ref := buildRef conns
  if ref.isEmpty then
    .ok ⟨ref, conns, [], [warnEmpty conns]⟩
  else
    match checkAll ref conns with
    | .error e => .error e
    | .ok eps0 =>
        let sref := sortByKey Prod.fst ref
        let eps := if 1 < eps0.length then sortByKey Conn.fq eps0 else eps0
        .ok ⟨ref, conns.map (fun c => if c ∈ eps then (fillConn sref c).1 else c),
          (eps.map (fun c => (fillConn sref c).2)).flatten, []⟩

/-- A connector's assigned value for a field passes the three checks of
lines 160-181 against the canonical entry: matching shape-code sign,
matching element count when indexed, and set-equal index sets. -/
def fieldAgrees (c : Conn) (k : String) (e : RefEntry) : Bool :=
  match alookup c.vars k with
  | none => false
  | some none => true
  | some (some v) =>
      ((decide (0 ≤ lenCode c k v)) == (decide (0 ≤ e.2.1))) &&
      (!(decide (0 ≤ lenCode c k v)) || (decide (lenCode c k v = e.2.1))) &&
      (!(decide (0 ≤ e.2.1)) || (decide ((symmDiff e.1.idxSet v.idxSet).length = 0)))

/-- A connector agrees with the canonical reference: it is empty, or every
canonical field is present and any assigned value passes the checks. -/
def connAgrees (ref : List (String × RefEntry)) (c : Conn) : Bool :=
  c.vars.isEmpty || ref.all (fun kv => fieldAgrees c kv.1 kv.2)

theorem symmDiff_self (l : List Nat) : symmDiff l l = [] := by
  have : l.filter (fun x => decide (¬ x ∈ l)) = [] := by
    rw [List.filter_eq_nil_iff]
    intro a ha
    simp [ha]
  simp only [symmDiff, this, List.append_nil]

theorem fieldAgrees_lookup_none {c : Conn} {k : String} {e : RefEntry}
    (hkv : alookup c.vars k = none) : fieldAgrees c k e = false := by
  simp [fieldAgrees, hkv]

theorem fieldAgrees_lookup_unassigned {c : Conn} {k : String} {e : RefEntry}
    (hkv : alookup c.vars k = some none) : fieldAgrees c k e = true := by
  simp [fieldAgrees, hkv]

theorem fieldAgrees_lookup_assigned {c : Conn} {k : String} {e : RefEntry} {v : VarData}
    (hkv : alookup c.vars k = some (some v)) :
    fieldAgrees c k e =
      (((decide (0 ≤ lenCode c k v)) == (decide (0 ≤ e.2.1))) &&
       (!(decide (0 ≤ lenCode c k v)) || (decide (lenCode c k v = e.2.1))) &&
       (!(decide (0 ≤ e.2.1)) || (decide ((symmDiff e.1.idxSet v.idxSet).length = 0)))) := by
  simp [fieldAgrees, hkv]

theorem checkFields_ok_iff (c : Conn) :
    ∀ (ref : List (String × RefEntry)) (part : Bool),
      (∃ b, checkFields c ref part = .ok b) ↔
        ref.all (fun kv => fieldAgrees c kv.1 kv.2) = true := by
  intro ref
  induction ref with
  | nil => intro part; simp [checkFields]
  | cons kv rest ih =>
      intro part
      obtain ⟨k, e⟩ := kv
      rw [List.all_cons]
      cases hkv : alookup c.vars k with
      | none =>
          rw [fieldAgrees_lookup_none hkv]
          simp [checkFields, hkv]
      | some vOpt =>
          cases vOpt with
          | none =>
              rw [fieldAgrees_lookup_unassigned hkv]
              simp only [checkFields, hkv, Bool.true_and]
              exact ih true
          | some v =>
              rw [fieldAgrees_lookup_assigned hkv]
              simp only [checkFields, hkv]
              by_cases h1 : (decide (0 ≤ lenCode c k v)) ≠ (decide (0 ≤ e.2.1))
              · rw [if_pos h1]
                simp [h1]
              · rw [if_neg h1]
                rw [not_ne_iff] at h1
                by_cases h2 : 0 ≤ lenCode c k v ∧ lenCode c k v ≠ e.2.1
                · rw [if_pos h2]
                  simp [h2.1, h2.2]
                · rw [if_neg h2]
                  by_cases h3 : 0 ≤ e.2.1 ∧ (symmDiff e.1.idxSet v.idxSet).length ≠ 0
                  · rw [if_pos h3]
                    simp [h3.1, h3.2]
                  · rw [if_neg h3]
                    rw [Classical.not_and_iff_or_not_not] at h2 h3
                    have hc1 : ((decide (0 ≤ lenCode c k v)) == (decide (0 ≤ e.2.1))) = true := by
                      rw [h1]; simp
                    have hc2 : (!(decide (0 ≤ lenCode c k v)) ||
                        (decide (lenCode c k v = e.2.1))) = true := by
                      rcases h2 with h2 | h2
                      · simp [h2]
                      · simp [not_ne_iff.mp h2]
                    have hc3 : (!(decide (0 ≤ e.2.1)) ||
                        (decide ((symmDiff e.1.idxSet v.idxSet).length = 0))) = true := by
                      rcases h3 with h3 | h3
                      · simp [h3]
                      · simp [not_ne_iff.mp h3]
                    rw [hc1, hc2, hc3]
                    simp only [Bool.and_self, Bool.true_and]
                    exact ih part

theorem checkAll_ok_iff (ref : List (String × RefEntry)) :
    ∀ (conns : List Conn),
      (∃ l, checkAll ref conns = .ok l) ↔ conns.all (connAgrees ref) = true := by
  intro conns
  induction conns with
  | nil => simp [checkAll]
  | cons c rest ih =>
      rw [List.all_cons]
      by_cases hce : c.vars.isEmpty
      · have hagree : connAgrees ref c = true := by simp [connAgrees, hce]
        rw [hagree, Bool.true_and, ← ih]
        simp only [checkAll, if_pos hce]
        constructor
        · intro ⟨l, hl⟩
          cases hrest : checkAll ref rest with
          | error e =>
              rw [hrest] at hl
              simp at hl
          | ok l2 => exact ⟨l2, rfl⟩
        · intro ⟨l, hl⟩
          rw [hl]
          exact ⟨c :: l, rfl⟩
      · simp only [checkAll, if_neg hce]
        cases hcf : checkFields c ref false with
        | error e =>
            have hnogood : ¬ (∃ b, checkFields c ref false = .ok b) := by
              intro ⟨b, hb⟩
              rw [hcf] at hb
              cases hb
            rw [checkFields_ok_iff] at hnogood
            have hfalse : connAgrees ref c = false := by
              rw [connAgrees]
              cases hra : ref.all (fun kv => fieldAgrees c kv.1 kv.2) with
              | true => exact absurd hra hnogood
              | false => simp [hce]
            rw [hfalse]
            simp only [Bool.false_and]
            constructor
            · intro ⟨l, hl⟩
              simp at hl
            · intro hh
              simp at hh
        | ok part =>
            have hgood : connAgrees ref c = true := by
              have := (checkFields_ok_iff c ref false).mp ⟨part, hcf⟩
              simp [connAgrees, this]
            rw [hgood, Bool.true_and, ← ih]
            constructor
            · intro ⟨l, hl⟩
              cases hrest : checkAll ref rest with
              | error e =>
                  rw [hrest] at hl
                  simp at hl
              | ok l2 => exact ⟨l2, rfl⟩
            · intro ⟨l, hl⟩
              rw [hl]
              exact ⟨if part then c :: l else l, rfl⟩

theorem buildRef_isEmpty_nil {conns : List Conn} (he : (buildRef conns).isEmpty) :
    buildRef conns = [] := by
  cases hb : buildRef conns with
  | nil => rfl
  | cons x xs => rw [hb] at he; simp at he

theorem validateAndExpand_ok_iff (conns : List Conn) :
    (∃ res, validateAndExpand conns = .ok res) ↔
      conns.all (connAgrees (buildRef conns)) = true := by
  by_cases he : (buildRef conns).isEmpty
  · constructor
    · intro _
      rw [buildRef_isEmpty_nil he, List.all_eq_true]
      intro c _
      rw [connAgrees]
      simp
    · intro _
      refine ⟨⟨buildRef conns, conns, [], [warnEmpty conns]⟩, ?_⟩
      simp [validateAndExpand, he]
  · constructor
    · intro ⟨res, hres⟩
      simp only [validateAndExpand, if_neg he] at hres
      cases hca : checkAll (buildRef conns) conns with
      | error e =>
          rw [hca] at hres
          simp at hres
      | ok l =>
          exact (checkAll_ok_iff _ conns).mp ⟨l, hca⟩
    · intro hall
      rcases (checkAll_ok_iff (buildRef conns) conns).mpr hall with ⟨l, hca⟩
      refine ⟨⟨buildRef conns,
        conns.map (fun c =>
          if c ∈ (if 1 < l.length then sortByKey Conn.fq l else l) then
            (fillConn (sortByKey Prod.fst (buildRef conns)) c).1
          else c),
        ((if 1 < l.length then sortByKey Conn.fq l else l).map (fun c =>
          (fillConn (sortByKey Prod.fst (buildRef conns)) c).2)).flatten,
        []⟩, ?_⟩
      simp [validateAndExpand, he, hca]

theorem scenario_missing (k k2 : String) (va vb : VarData) (c1 c2 : Conn)
    (h1 : c1.vars = [(k, some va)]) (h2 : c2.vars = [(k2, some vb)]) (hne : k ≠ k2) :
    validateAndExpand [c1, c2] = .error (.missingVar c1.name k2 c2.name) := by
  have href : buildRef [c1, c2] =
      [(k, (va, lenCode c1 k va, c1)), (k2, (vb, lenCode c2 k2 vb, c2))] := by
    simp [buildRef, buildRefFrom, addVarsToRef, h1, h2, alookup, hne]
  simp [validateAndExpand, href, checkAll, checkFields, alookup, h1, hne,
    symmDiff_self]

theorem scenario_mixed (k : String) (va vb : VarData) (c1 c2 : Conn)
    (h1 : c1.vars = [(k, some va)]) (h2 : c2.vars = [(k, some vb)])
    (ha1 : ¬ k ∈ c1.aggregators) (ha2 : ¬ k ∈ c2.aggregators)
    (hva : va.indexed = false) (hvb : vb.indexed = true) :
    validateAndExpand [c1, c2] = .error (.mixed k c1.name c2.name) := by
  have hl1 : lenCode c1 k va = -1 := by simp [lenCode, ha1, hva]
  have hl2 : lenCode c2 k vb = (vb.idxSet.length : Int) := by simp [lenCode, ha2, hvb]
  have href : buildRef [c1, c2] = [(k, (va, lenCode c1 k va, c1))] := by
    simp [buildRef, buildRefFrom, addVarsToRef, h1, h2, alookup]
  simp [validateAndExpand, href, checkAll, checkFields, alookup, h1, h2,
    symmDiff_self, hl1, hl2]

theorem scenario_idxCount (k : String) (va vb : VarData) (c1 c2 : Conn)
    (h1 : c1.vars = [(k, some va)]) (h2 : c2.vars = [(k, some vb)])
    (ha1 : ¬ k ∈ c1.aggregators) (ha2 : ¬ k ∈ c2.aggregators)
    (hva : va.indexed = true) (hvb : vb.indexed = true)
    (hlen : va.idxSet.length ≠ vb.idxSet.length) :
    validateAndExpand [c1, c2] =
      .error (.idxCount k (va.idxSet.length : Int) c1.name
        (vb.idxSet.length : Int) c2.name) := by
  have hl1 : lenCode c1 k va = (va.idxSet.length : Int) := by simp [lenCode, ha1, hva]
  have hl2 : lenCode c2 k vb = (vb.idxSet.length : Int) := by simp [lenCode, ha2, hvb]
  have href : buildRef [c1, c2] = [(k, (va, lenCode c1 k va, c1))] := by
    simp [buildRef, buildRefFrom, addVarsToRef, h1, h2, alookup]
  have hcast : ¬ ((vb.idxSet.length : Int) = (va.idxSet.length : Int)) := by
    intro hh
    exact hlen (Int.natCast_inj.mp hh).symm
  simp [validateAndExpand, href, checkAll, checkFields, alookup, h1, h2,
    symmDiff_self, hl1, hl2, hcast]

theorem scenario_idxMismatch (k : String) (va vb : VarData) (c1 c2 : Conn)
    (h1 : c1.vars = [(k, some va)]) (h2 : c2.vars = [(k, some vb)])
    (ha1 : ¬ k ∈ c1.aggregators) (ha2 : ¬ k ∈ c2.aggregators)
    (hva : va.indexed = true) (hvb : vb.indexed = true)
    (hlen : va.idxSet.length = vb.idxSet.length)
    (hsd : (symmDiff va.idxSet vb.idxSet).length ≠ 0) :
    validateAndExpand [c1, c2] = .error (.mismatchedIdx k c1.name c2.name) := by
  have hl1 : lenCode c1 k va = (va.idxSet.length : Int) := by simp [lenCode, ha1, hva]
  have hl2 : lenCode c2 k vb = (vb.idxSet.length : Int) := by simp [lenCode, ha2, hvb]
  have href : buildRef [c1, c2] = [(k, (va, lenCode c1 k va, c1))] := by
    simp [buildRef, buildRefFrom, addVarsToRef, h1, h2, alookup]
  simp [validateAndExpand, href, checkAll, checkFields, alookup, h1, h2,
    symmDiff_self, hl1, hl2, hlen, hsd]

/-- C3: `_validate_and_expand_connector_set` fails exactly when a connector
disagrees with the canonical field reference, and each kind of disagreement
surfaces as the corresponding `ValueError`: a non-empty connector lacking a
canonical field key fails with the missing-variable error; a scalar field
meeting an indexed one fails with the mixing-indexed-and-non-indexed error;
two indexed fields with different element counts or non-set-equal index
sets fail with an index-mismatch error. -/
theorem validation_error_conditions :
    (∀ conns : List Conn, (∃ res, validateAndExpand conns = .ok res) ↔
      conns.all (connAgrees (buildRef conns)) = true)
    ∧ (∀ (k k2 : String) (va vb : VarData) (c1 c2 : Conn),
        c1.vars = [(k, some va)] → c2.vars = [(k2, some vb)] → k ≠ k2 →
        validateAndExpand [c1, c2] = .error (.missingVar c1.name k2 c2.name))
    ∧ (∀ (k : String) (va vb : VarData) (c1 c2 : Conn),
        c1.vars = [(k, some va)] → c2.vars = [(k, some vb)] →
        ¬ k ∈ c1.aggregators → ¬ k ∈ c2.aggregators →
        va.indexed = false → vb.indexed = true →
        validateAndExpand [c1, c2] = .error (.mixed k c1.name c2.name))
    ∧ (∀ (k : String) (va vb : VarData) (c1 c2 : Conn),
        c1.vars = [(k, some va)] → c2.vars = [(k, some vb)] →
        ¬ k ∈ c1.aggregators → ¬ k ∈ c2.aggregators →
        va.indexed = true → vb.indexed = true →
        va.idxSet.length ≠ vb.idxSet.length →
        validateAndExpand [c1, c2] =
          .error (.idxCount k (va.idxSet.length : Int) c1.name
            (vb.idxSet.length : Int) c2.name))
    ∧ (∀ (k : String) (va vb : VarData) (c1 c2 : Conn),
        c1.vars = [(k, some va)] → c2.vars = [(k, some vb)] →
        ¬ k ∈ c1.aggregators → ¬ k ∈ c2.aggregators →
        va.indexed = true → vb.indexed = true →
        va.idxSet.length = vb.idxSet.length →
        (symmDiff va.idxSet vb.idxSet).length ≠ 0 →
        validateAndExpand [c1, c2] = .error (.mismatchedIdx k c1.name c2.name)) :=
  ⟨validateAndExpand_ok_iff, scenario_missing, scenario_mixed,
    scenario_idxCount, scenario_idxMismatch⟩

def wScalar : VarData := ⟨false, [], some 1, some (some 0, some 5), []⟩

def wIndexed : VarData :=
  ⟨true, [1, 2], some 2, none, [(1, ⟨3, some 0, none⟩), (2, ⟨4, none, some 9⟩)]⟩

def wIndexedB : VarData := ⟨true, [1, 3], some 2, none, []⟩

/-- Witness for C3 at concrete connector sets: a consistent pair is
accepted, a missing key and a scalar/indexed clash produce the respective
errors, and two indexed variables over different index sets produce the
index-mismatch error. -/
theorem validation_error_conditions_witness :
    (∃ res, validateAndExpand
      [⟨0, "a", "m.a", 10, [("x", some wScalar)], [], []⟩,
       ⟨1, "b", "m.b", 11, [("x", some wScalar)], [], []⟩] = .ok res)
    ∧ validateAndExpand
        [⟨0, "a", "m.a", 10, [("x", some wScalar)], [], []⟩,
         ⟨1, "b", "m.b", 11, [("y", some wScalar)], [], []⟩]
        = .error (.missingVar "a" "y" "b")
    ∧ validateAndExpand
        [⟨0, "a", "m.a", 10, [("x", some wScalar)], [], []⟩,
         ⟨1, "b", "m.b", 11, [("x", some wIndexed)], [], []⟩]
        = .error (.mixed "x" "a" "b")
    ∧ validateAndExpand
        [⟨0, "a", "m.a", 10, [("x", some wIndexed)], [], []⟩,
         ⟨1, "b", "m.b", 11, [("x", some wIndexedB)], [], []⟩]
        = .error (.mismatchedIdx "x" "a" "b") :=
  ⟨(validation_error_conditions.1 _).mpr (by decide),
   validation_error_conditions.2.1 "x" "y" wScalar wScalar _ _ rfl rfl (by decide),
   validation_error_conditions.2.2.1 "x" wScalar wIndexed _ _ rfl rfl
     (by decide) (by decide) (by decide) (by decide),
   validation_error_conditions.2.2.2.2 "x" wIndexed wIndexedB _ _ rfl rfl
     (by decide) (by decide) (by decide) (by decide) (by decide) (by decide)⟩

theorem addVarsToRef_all_none (c : Conn) :
    ∀ (vars : List (String × Option VarData)) (ref : List (String × RefEntry)),
      (∀ kv, kv ∈ vars → kv.2 = none) → addVarsToRef c vars ref = ref := by
  intro vars
  induction vars with
  | nil => intro ref _; rfl
  | cons kv rest ih =>
      intro ref h
      obtain ⟨k, v?⟩ := kv
      have hv : v? = none := h (k, v?) (by simp)
      rw [hv]
      show addVarsToRef c rest (if (alookup ref k).isSome then ref
        else match (none : Option VarData) with
          | none => ref
          | some v => ref ++ [(k, (v, lenCode c k v, c))]) = ref
      have : (if (alookup ref k).isSome then ref
        else match (none : Option VarData) with
          | none => ref
          | some v => ref ++ [(k, (v, lenCode c k v, c))]) = ref := by
        by_cases hh : (alookup ref k).isSome <;> simp [hh]
      rw [this]
      exact ih ref (fun kv hkv => h kv (by simp [hkv]))

theorem buildRef_all_none (conns : List Conn)
    (h : ∀ c, c ∈ conns → ∀ kv, kv ∈ c.vars → kv.2 = none) :
    buildRef conns = [] := by
  suffices hgen : ∀ (cs : List Conn), (∀ c, c ∈ cs → ∀ kv, kv ∈ c.vars → kv.2 = none) →
      buildRefFrom cs [] = [] from hgen conns h
  intro cs
  induction cs with
  | nil => intro _; rfl
  | cons c rest ih =>
      intro hcs
      show buildRefFrom rest (addVarsToRef c c.vars []) = []
      rw [addVarsToRef_all_none c c.vars [] (hcs c (by simp))]
      exact ih (fun c2 hc2 => hcs c2 (by simp [hc2]))

/-- C6: a connector class in which no member has any assigned field does
not raise: `_validate_and_expand_connector_set` emits the warning naming
the connectors in sorted order and returns the empty reference unchanged,
so the transformation continues. -/
theorem empty_class_warns (conns : List Conn)
    (h : ∀ c, c ∈ conns → ∀ kv, kv ∈ c.vars → kv.2 = none) :
    validateAndExpand conns = .ok ⟨[], conns, [], [warnEmpty conns]⟩ := by
  have hnil : buildRef conns = [] := buildRef_all_none conns h
  simp [validateAndExpand, hnil]

/-- Witness for C6: a class of two connectors with no assigned fields. -/
theorem empty_class_warns_witness :
    validateAndExpand
      [⟨0, "a", "m.a", 10, [], [], []⟩, ⟨1, "b", "m.b", 11, [("x", none)], [], []⟩]
      = .ok ⟨[],
        [⟨0, "a", "m.a", 10, [], [], []⟩, ⟨1, "b", "m.b", 11, [("x", none)], [], []⟩],
        [],
        [warnEmpty [⟨0, "a", "m.a", 10, [], [], []⟩,
          ⟨1, "b", "m.b", 11, [("x", none)], [], []⟩]]⟩ :=
  empty_class_warns _ (by decide)

theorem addVarsToRef_keys_nodup (c : Conn) :
    ∀ (vars : List (String × Option VarData)) (ref : List (String × RefEntry)),
      ((ref.map Prod.fst).Nodup) → ((addVarsToRef c vars ref).map Prod.fst).Nodup := by
  intro vars
  induction vars with
  | nil => intro ref h; exact h
  | cons kv rest ih =>
      intro ref h
      obtain ⟨k, v?⟩ := kv
      show ((addVarsToRef c rest _).map Prod.fst).Nodup
      by_cases hl : (alookup ref k).isSome
      · simp only [if_pos hl]
        exact ih ref h
      · simp only [if_neg hl]
        cases v? with
        | none => exact ih ref h
        | some v =>
            refine ih _ ?_
            rw [List.map_append]
            simp only [List.map]
            rw [List.nodup_append]
            refine ⟨h, by simp, ?_⟩
            intro x hx hx2
            have : x = k := by simpa using hx2
            subst this
            have : x ∈ keysOf ref := by simpa [keysOf] using hx
            exact hl ((alookup_isSome_iff_mem_keys ref x).mpr this)

theorem buildRef_keys_nodup (conns : List Conn) :
    ((buildRef conns).map Prod.fst).Nodup := by
  suffices hgen : ∀ (cs : List Conn) (ref : List (String × RefEntry)),
      ((ref.map Prod.fst).Nodup) → ((buildRefFrom cs ref).map Prod.fst).Nodup by
    exact hgen conns [] (by simp)
  intro cs
  induction cs with
  | nil => intro ref h; exact h
  | cons c rest ih =>
      intro ref h
      exact ih _ (addVarsToRef_keys_nodup c c.vars ref h)

/-- `fillStep` never changes anything but the `vars` dict of the connector. -/
theorem fillStep_shell (c : Conn) (made : List Created) (kv : String × RefEntry) :
    (fillStep c made kv).1.cid = c.cid ∧ (fillStep c made kv).1.name = c.name ∧
    (fillStep c made kv).1.fq = c.fq ∧ (fillStep c made kv).1.parent = c.parent ∧
    (fillStep c made kv).1.aggregators = c.aggregators ∧
    (fillStep c made kv).1.extensives = c.extensives := by
  rw [fillStep]
  cases alookup c.vars kv.1 with
  | none => exact ⟨rfl, rfl, rfl, rfl, rfl, rfl⟩
  | some vOpt =>
      cases vOpt with
      | none => exact ⟨rfl, rfl, rfl, rfl, rfl, rfl⟩
      | some v => exact ⟨rfl, rfl, rfl, rfl, rfl, rfl⟩

theorem fillStep_vars_other (c : Conn) (made : List Created) (kv : String × RefEntry)
    (k : String) (hk : kv.1 ≠ k) :
    alookup (fillStep c made kv).1.vars k = alookup c.vars k := by
  rw [fillStep]
  cases alookup c.vars kv.1 with
  | none =>
      show alookup (assocSet c.vars kv.1 _) k = _
      rw [alookup_assocSet, if_neg hk]
  | some vOpt =>
      cases vOpt with
      | none =>
          show alookup (assocSet c.vars kv.1 _) k = _
          rw [alookup_assocSet, if_neg hk]
      | some v => rfl

theorem fillFold_vars : ∀ (sref : List (String × RefEntry)) (c : Conn)
    (made : List Created) (k : String), ¬ k ∈ sref.map Prod.fst →
    alookup (sref.foldl (fun acc kv => fillStep acc.1 acc.2 kv) (c, made)).1.vars k
      = alookup c.vars k := by
  intro sref
  induction sref with
  | nil => intro c made k _; rfl
  | cons kv rest ih =>
      intro c made k hk
      have hk1 : kv.1 ≠ k := by
        intro hh; exact hk (by simp [hh])
      have hk2 : ¬ k ∈ rest.map Prod.fst := by
        intro hh; exact hk (by simp [hh])
      rw [List.foldl_cons]
      have := ih (fillStep c made kv).1 (fillStep c made kv).2 k hk2
      rw [this, fillStep_vars_other c made kv k hk1]

theorem fillFold_shell : ∀ (sref : List (String × RefEntry)) (c : Conn)
    (made : List Created),
    (sref.foldl (fun acc kv => fillStep acc.1 acc.2 kv) (c, made)).1.cid = c.cid ∧
    (sref.foldl (fun acc kv => fillStep acc.1 acc.2 kv) (c, made)).1.fq = c.fq ∧
    (sref.foldl (fun acc kv => fillStep acc.1 acc.2 kv) (c, made)).1.parent = c.parent := by
  intro sref
  induction sref with
  | nil => intro c made; exact ⟨rfl, rfl, rfl⟩
  | cons kv rest ih =>
      intro c made
      rw [List.foldl_cons]
      rcases ih (fillStep c made kv).1 (fillStep c made kv).2 with ⟨h1, h2, h3⟩
      rcases fillStep_shell c made kv with ⟨g1, _, g3, g4, _, _⟩
      exact ⟨h1.trans g1, h2.trans g3, h3.trans g4⟩

theorem fillFold_made : ∀ (sref : List (String × RefEntry)) (c : Conn)
    (made : List Created), ∃ extra,
    (sref.foldl (fun acc kv => fillStep acc.1 acc.2 kv) (c, made)).2 = made ++ extra := by
  intro sref
  induction sref with
  | nil => intro c made; exact ⟨[], by simp⟩
  | cons kv rest ih =>
      intro c made
      rw [List.foldl_cons]
      rcases ih (fillStep c made kv).1 (fillStep c made kv).2 with ⟨extra, hextra⟩
      rw [fillStep]
      rw [fillStep] at hextra
      cases hm : alookup c.vars kv.1 with
      | none =>
          rw [hm] at hextra
          exact ⟨⟨c.parent, c.fq ++ ".auto." ++ kv.1, newAutoVar kv.2⟩ :: extra, by
            rw [hextra]; simp⟩
      | some vOpt =>
          cases vOpt with
          | none =>
              rw [hm] at hextra
              exact ⟨⟨c.parent, c.fq ++ ".auto." ++ kv.1, newAutoVar kv.2⟩ :: extra, by
                rw [hextra]; simp⟩
          | some v =>
              rw [hm] at hextra
              exact ⟨extra, by rw [hextra]⟩

theorem fillFold_at : ∀ (sref : List (String × RefEntry)) (c : Conn)
    (made : List Created) (k : String) (e : RefEntry),
    (sref.map Prod.fst).Nodup → (k, e) ∈ sref →
    (alookup c.vars k = none ∨ alookup c.vars k = some none) →
    alookup (sref.foldl (fun acc kv => fillStep acc.1 acc.2 kv) (c, made)).1.vars k
        = some (some (newAutoVar e)) ∧
    (⟨c.parent, c.fq ++ ".auto." ++ k, newAutoVar e⟩ : Created) ∈
      (sref.foldl (fun acc kv => fillStep acc.1 acc.2 kv) (c, made)).2 := by
  intro sref
  induction sref with
  | nil => intro c made k e _ hke; simp at hke
  | cons kv rest ih =>
      intro c made k e hnd hke hmiss
      rw [List.map_cons] at hnd
      rcases List.nodup_cons.mp hnd with ⟨hk0, hndr⟩
      by_cases hk : kv.1 = k
      · have hkv : kv = (k, e) := by
          rcases List.mem_cons.mp hke with hh | hh
          · exact hh.symm
          · exfalso
            apply hk0
            rw [hk]
            exact List.mem_map.mpr ⟨(k, e), hh, rfl⟩
        subst hkv
        rw [List.foldl_cons]
        have hstep : fillStep c made (k, e) =
            ({ c with vars := assocSet c.vars k (some (newAutoVar e)) },
             made ++ [⟨c.parent, c.fq ++ ".auto." ++ k, newAutoVar e⟩]) := by
          rw [fillStep]
          rcases hmiss with hm | hm <;> rw [hm]
        rw [hstep]
        have hknotr : ¬ k ∈ rest.map Prod.fst := hk0
        constructor
        · rw [fillFold_vars rest _ _ k hknotr]
          show alookup (assocSet c.vars k (some (newAutoVar e))) k = _
          rw [alookup_assocSet, if_pos rfl]
        · rcases fillFold_made rest _ _ with ⟨extra, hextra⟩
          rw [hextra]
          simp
      · have hker : (k, e) ∈ rest := by
          rcases List.mem_cons.mp hke with hh | hh
          · exfalso; exact hk (by rw [← hh])
          · exact hh
        rw [List.foldl_cons]
        have hmiss2 : alookup (fillStep c made kv).1.vars k = none ∨
            alookup (fillStep c made kv).1.vars k = some none := by
          rw [fillStep_vars_other c made kv k hk]
          exact hmiss
        have := ih (fillStep c made kv).1 (fillStep c made kv).2 k e hndr hker hmiss2
        rcases fillStep_shell c made kv with ⟨_, _, hfq, hpar, _, _⟩
        rw [hfq, hpar] at this
        exact this

theorem checkFields_true : ∀ (ref : List (String × RefEntry)) (c : Conn) (b : Bool),
    checkFields c ref true = .ok b → b = true := by
  intro ref
  induction ref with
  | nil =>
      intro c b h
      have : (Except.ok true : Except VErr Bool) = .ok b := h
      exact (Except.ok.inj this).symm
  | cons kv rest ih =>
      intro c b h
      obtain ⟨k, e⟩ := kv
      cases hm : alookup c.vars k with
      | none =>
          simp only [checkFields, hm] at h
          exact Except.noConfusion h
      | some vOpt =>
          cases vOpt with
          | none =>
              simp only [checkFields, hm] at h
              exact ih c b h
          | some v =>
              simp only [checkFields, hm] at h
              by_cases h1 : (decide (0 ≤ lenCode c k v)) ≠ (decide (0 ≤ e.2.1))
              · rw [if_pos h1] at h
                exact Except.noConfusion h
              · rw [if_neg h1] at h
                by_cases h2 : 0 ≤ lenCode c k v ∧ lenCode c k v ≠ e.2.1
                · rw [if_pos h2] at h
                  exact Except.noConfusion h
                · rw [if_neg h2] at h
                  by_cases h3 : 0 ≤ e.2.1 ∧ (symmDiff e.1.idxSet v.idxSet).length ≠ 0
                  · rw [if_pos h3] at h
                    exact Except.noConfusion h
                  · rw [if_neg h3] at h
                    exact ih c b h

theorem checkFields_partial : ∀ (ref : List (String × RefEntry)) (c : Conn)
    (part : Bool) (k : String) (e : RefEntry) (b : Bool),
    (k, e) ∈ ref → alookup c.vars k = some none →
    checkFields c ref part = .ok b → b = true := by
  intro ref
  induction ref with
  | nil => intro c part k e b hke; simp at hke
  | cons kv rest ih =>
      intro c part k e b hke hnone h
      obtain ⟨k0, e0⟩ := kv
      cases hm : alookup c.vars k0 with
      | none =>
          simp only [checkFields, hm] at h
          exact Except.noConfusion h
      | some vOpt =>
          cases vOpt with
          | none =>
              simp only [checkFields, hm] at h
              exact checkFields_true rest c b h
          | some v =>
              simp only [checkFields, hm] at h
              have hker : (k, e) ∈ rest := by
                rcases List.mem_cons.mp hke with hh | hh
                · exfalso
                  have : k0 = k := congrArg Prod.fst hh.symm
                  rw [this] at hm
                  rw [hm] at hnone
                  cases hnone
                · exact hh
              by_cases h1 : (decide (0 ≤ lenCode c k0 v)) ≠ (decide (0 ≤ e0.2.1))
              · rw [if_pos h1] at h
                exact Except.noConfusion h
              · rw [if_neg h1] at h
                by_cases h2 : 0 ≤ lenCode c k0 v ∧ lenCode c k0 v ≠ e0.2.1
                · rw [if_pos h2] at h
                  exact Except.noConfusion h
                · rw [if_neg h2] at h
                  by_cases h3 : 0 ≤ e0.2.1 ∧ (symmDiff e0.1.idxSet v.idxSet).length ≠ 0
                  · rw [if_pos h3] at h
                    exact Except.noConfusion h
                  · rw [if_neg h3] at h
                    exact ih c part k e b hker hnone h

theorem checkAll_mem : ∀ (conns : List Conn) (ref : List (String × RefEntry))
    (l : List Conn) (c : Conn),
    checkAll ref conns = .ok l → c ∈ conns →
    (c.vars.isEmpty = true ∨ checkFields c ref false = .ok true) →
    c ∈ l := by
  intro conns
  induction conns with
  | nil => intro ref l c _ hc; simp at hc
  | cons c0 rest ih =>
      intro ref l c h hc hcond
      rw [checkAll] at h
      by_cases hce : c0.vars.isEmpty
      · rw [if_pos hce] at h
        cases hrest : checkAll ref rest with
        | error e => rw [hrest] at h; cases h
        | ok l2 =>
            rw [hrest] at h
            have hl : l = c0 :: l2 := (Except.ok.inj h).symm
            subst hl
            rcases List.mem_cons.mp hc with rfl | hcr
            · simp
            · exact List.mem_cons.mpr (Or.inr (ih ref l2 c hrest hcr hcond))
      · rw [if_neg hce] at h
        cases hcf : checkFields c0 ref false with
        | error e => rw [hcf] at h; cases h
        | ok part =>
            rw [hcf] at h
            cases hrest : checkAll ref rest with
            | error e => rw [hrest] at h; cases h
            | ok l2 =>
                rw [hrest] at h
                have hl : l = if part then c0 :: l2 else l2 := (Except.ok.inj h).symm
                subst hl
                rcases List.mem_cons.mp hc with rfl | hcr
                · rcases hcond with hcond | hcond
                  · exact absurd hcond hce
                  · have : part = true := by
                      rw [hcf] at hcond
                      exact Except.ok.inj hcond
                    rw [this]
                    simp
                · have hmem := ih ref l2 c hrest hcr hcond
                  by_cases hp : part = true
                  · rw [if_pos hp]
                    exact List.mem_cons.mpr (Or.inr hmem)
                  · rw [if_neg hp]
                    exact hmem

theorem newAutoVar_spec (e : RefEntry) :
    ((newAutoVar e).indexed = true ↔ 0 ≤ e.2.1) ∧
    (0 ≤ e.2.1 → (newAutoVar e).idxSet = e.1.idxSet ∧
      (newAutoVar e).elems = e.1.idxSet.map (fun i => (i, elemAt e.1 i))) ∧
    (newAutoVar e).domain = e.1.domain ∧ (newAutoVar e).bounds = e.1.bounds := by
  rw [newAutoVar]
  by_cases h : 0 ≤ e.2.1 <;> simp [h]

/-- C4: for every connector of a validated class that is empty, or whose
value for a canonical field is absent or unassigned, the result holds an
updated connector (same identity, name, parent) whose value for that field
is the synthesized variable; the creation record carries the parent block
and the name `<fq>.auto.<field>`; the synthesized variable is indexed over
the canonical index set exactly when the canonical shape code is
nonnegative, and copies the canonical domain, bounds, and per-element
data. -/
theorem synthesis_correct (conns : List Conn) (res : ExpandResult)
    (hok : validateAndExpand conns = .ok res) (c : Conn) (hc : c ∈ conns)
    (k : String) (e : RefEntry) (hke : (k, e) ∈ res.ref)
    (hmiss : alookup c.vars k = none ∨ alookup c.vars k = some none) :
    ∃ c2, c2 ∈ res.conns ∧ c2.cid = c.cid ∧ c2.fq = c.fq ∧ c2.parent = c.parent ∧
      alookup c2.vars k = some (some (newAutoVar e)) ∧
      (⟨c.parent, c.fq ++ ".auto." ++ k, newAutoVar e⟩ : Created) ∈ res.created ∧
      ((newAutoVar e).indexed = true ↔ 0 ≤ e.2.1) ∧
      (0 ≤ e.2.1 → (newAutoVar e).idxSet = e.1.idxSet ∧
        (newAutoVar e).elems = e.1.idxSet.map (fun i => (i, elemAt e.1 i))) ∧
      (newAutoVar e).domain = e.1.domain ∧
      (newAutoVar e).bounds = e.1.bounds := by
  by_cases he : (buildRef conns).isEmpty
  · exfalso
    have hres : res = ⟨buildRef conns, conns, [], [warnEmpty conns]⟩ := by
      simp [validateAndExpand, he] at hok
      rw [← hok]
    rw [hres, buildRef_isEmpty_nil he] at hke
    simp at hke
  · simp only [validateAndExpand, if_neg he] at hok
    cases hca : checkAll (buildRef conns) conns with
    | error er =>
        rw [hca] at hok
        cases hok
    | ok eps0 =>
        rw [hca] at hok
        have hres := Except.ok.inj hok
        have hagree : conns.all (connAgrees (buildRef conns)) = true :=
          (checkAll_ok_iff (buildRef conns) conns).mp ⟨eps0, hca⟩
        have hconnAgree : connAgrees (buildRef conns) c = true :=
          List.all_eq_true.mp hagree c hc
        have hrefEq : res.ref = buildRef conns := by rw [← hres]
        have hkeRef : (k, e) ∈ buildRef conns := hrefEq ▸ hke
        have hcond : c.vars.isEmpty = true ∨
            checkFields c (buildRef conns) false = .ok true := by
          rcases hmiss with hm | hm
          · left
            by_contra hne
            rw [connAgrees] at hconnAgree
            have hall : (buildRef conns).all
                (fun kv => fieldAgrees c kv.1 kv.2) = true := by
              rcases Bool.or_eq_true_iff.mp hconnAgree with hh | hh
              · exact absurd hh hne
              · exact hh
            have := List.all_eq_true.mp hall (k, e) hkeRef
            rw [fieldAgrees_lookup_none hm] at this
            cases this
          · right
            have hne : ¬ c.vars.isEmpty = true := by
              intro hh
              have : c.vars = [] := by
                cases hv : c.vars with
                | nil => rfl
                | cons a b => rw [hv] at hh; simp at hh
              rw [this] at hm
              cases hm
            rw [connAgrees] at hconnAgree
            have hall : (buildRef conns).all
                (fun kv => fieldAgrees c kv.1 kv.2) = true := by
              rcases Bool.or_eq_true_iff.mp hconnAgree with hh | hh
              · exact absurd hh hne
              · exact hh
            rcases (checkFields_ok_iff c (buildRef conns) false).mpr hall with ⟨b, hb⟩
            have := checkFields_partial (buildRef conns) c false k e b hkeRef hm hb
            rw [this] at hb
            exact hb
        have hceps0 : c ∈ eps0 := checkAll_mem conns (buildRef conns) eps0 c hca hc hcond
        have hceps : c ∈ (if 1 < eps0.length then sortByKey Conn.fq eps0 else eps0) := by
          by_cases hl : 1 < eps0.length
          · rw [if_pos hl]
            exact (perm_sortByKey Conn.fq eps0).mem_iff.mpr hceps0
          · rw [if_neg hl]
            exact hceps0
        have hndSref : ((sortByKey Prod.fst (buildRef conns)).map Prod.fst).Nodup := by
          have hperm := perm_sortByKey (γ := String) Prod.fst (buildRef conns)
          exact ((hperm.map Prod.fst).nodup_iff).mpr (buildRef_keys_nodup conns)
        have hkeSref : (k, e) ∈ sortByKey (γ := String) Prod.fst (buildRef conns) :=
          (perm_sortByKey Prod.fst (buildRef conns)).mem_iff.mpr hkeRef
        have hfill := fillFold_at (sortByKey Prod.fst (buildRef conns)) c [] k e
          hndSref hkeSref hmiss
        rcases fillFold_shell (sortByKey Prod.fst (buildRef conns)) c [] with
          ⟨hcid, hfq, hpar⟩
        refine ⟨(fillConn (sortByKey Prod.fst (buildRef conns)) c).1, ?_, hcid, hfq, hpar,
          hfill.1, ?_, (newAutoVar_spec e).1, (newAutoVar_spec e).2.1,
          (newAutoVar_spec e).2.2.1, (newAutoVar_spec e).2.2.2⟩
        · have : res.conns = conns.map (fun x =>
              if x ∈ (if 1 < eps0.length then sortByKey Conn.fq eps0 else eps0) then
                (fillConn (sortByKey Prod.fst (buildRef conns)) x).1
              else x) := by rw [← hres]
          rw [this]
          refine List.mem_map.mpr ⟨c, hc, ?_⟩
          rw [if_pos hceps]
        · have : res.created = ((if 1 < eps0.length then sortByKey Conn.fq eps0
              else eps0).map (fun x =>
                (fillConn (sortByKey Prod.fst (buildRef conns)) x).2)).flatten := by
            rw [← hres]
          rw [this]
          refine List.mem_flatten.mpr
            ⟨(fillConn (sortByKey Prod.fst (buildRef conns)) c).2, ?_, hfill.2⟩
          exact List.mem_map.mpr ⟨c, hceps, rfl⟩

def wconnA : Conn := ⟨0, "a", "m.a", 10, [("y", some wIndexed)], [], []⟩

def wconnB : Conn := ⟨1, "b", "m.b", 11, [("y", none)], [], []⟩

def wres : ExpandResult :=
  ⟨[("y", (wIndexed, 2, wconnA))],
   [wconnA, ⟨1, "b", "m.b", 11, [("y", some wIndexed)], [], []⟩],
   [⟨11, "m.b.auto.y", wIndexed⟩],
   []⟩

/-- Witness for C4: a two-connector class where `b` leaves field `y`
unassigned; after expansion `b` carries a synthesized copy of the indexed
canonical variable, created on block 11 under the name `m.b.auto.y`. -/
theorem synthesis_correct_witness :
    ∃ c2, c2 ∈ wres.conns ∧ c2.cid = wconnB.cid ∧ c2.fq = wconnB.fq ∧
      c2.parent = wconnB.parent ∧
      alookup c2.vars "y" = some (some (newAutoVar (wIndexed, 2, wconnA))) ∧
      (⟨wconnB.parent, wconnB.fq ++ ".auto." ++ "y",
        newAutoVar (wIndexed, 2, wconnA)⟩ : Created) ∈ wres.created ∧
      ((newAutoVar (wIndexed, 2, wconnA)).indexed = true ↔ 0 ≤ (2 : Int)) ∧
      (0 ≤ (2 : Int) → (newAutoVar (wIndexed, 2, wconnA)).idxSet = wIndexed.idxSet ∧
        (newAutoVar (wIndexed, 2, wconnA)).elems =
          wIndexed.idxSet.map (fun i => (i, elemAt wIndexed i))) ∧
      (newAutoVar (wIndexed, 2, wconnA)).domain = wIndexed.domain ∧
      (newAutoVar (wIndexed, 2, wconnA)).bounds = wIndexed.bounds :=
  synthesis_correct [wconnA, wconnB] wres rfl wconnB (by decide) "y"
    (wIndexed, 2, wconnA) (by decide) (Or.inr (by decide))

/-! ## `_ConnExpansion._add_connections` (lines 260-305)

Terms stand for the leaf expressions the `rule` closure builds:
`c.vars[k].add()` (each call yields a fresh member of the `VarList`, counted
by `n`), the shared extensive variable `evar` added to the expanded block,
and `c.vars[k][args]`. -/

inductive Term where
  | addCall (cid : Nat) (field : String) (n : Nat)
  | evar (blk : Nat) (field : String)
  | varAt (cid : Nat) (field : String) (idx : Option Nat)
deriving DecidableEq

def dTerm : Term := .varAt 0 "" none

/-- A constraint added by `blk.add_component(cname, con)`; `tmp` is the full
list the rule builds, its body being `tmp[0] == tmp[1]`. -/
structure GenCon where
  cname : String
  idx : Option Nat
  tmp : List Term
deriving DecidableEq

/-- `return tmp[0] == tmp[1]` (line 303). -/
def GenCon.body (g : GenCon) : Term × Term :=
  (g.tmp.getD 0 dTerm, g.tmp.getD 1 dTerm)

/-- The number of `.add()` calls made so far on each `(connector, field)`
`VarList`. -/
abbrev AddCounters := List ((Nat × String) × Nat)

structure AddSt where
  counters : AddCounters
  lastEvar : Option (Nat × String)
  cons : List GenCon
  evars : List (Nat × String)
  appends : List (Nat × String × String)
deriving DecidableEq

/-- Lines 276-277 with the `break` on line 286: the first extensive type of
the connector whose field list holds `k`. -/
def findEtype (c : Conn) (k : String) : Option String :=
  (c.extensives.find? (fun p => decide (k ∈ p.2))).map Prod.fst

structure ExtScanSt where
  once : Bool
  cont : Bool
  evars : List (Nat × String)
  appends : List (Nat × String × String)
deriving DecidableEq

/-- One iteration of the `for c in conn_set` loop of lines 275-286: the
first extensive occurrence creates the shared variable (added to the block
under the field name), later occurrences only append to the bookkeeping
list and set `cont`. -/
def extScanStep (blk : Nat) (k : String) (st : ExtScanSt) (c : Conn) : ExtScanSt :=
  match findEtype c k with
  | none => st
  | some et =>
      if st.once then
        ⟨st.once, true, st.evars, st.appends ++ [(c.cid, et, k)]⟩
      else
        ⟨true, st.cont, st.evars ++ [(blk, k)], st.appends ++ [(c.cid, et, k)]⟩

def extScan (connSet : List Conn) (k : String) (blk : Nat) : ExtScanSt :=
  connSet.foldl (extScanStep blk k) ⟨false, false, [], []⟩

/-- One iteration of the `for c in conn_set` loop inside `rule`
(lines 296-302).  Note line 299 tests `k in c.extensives`, i.e. membership
among the extensive *type* keys, and reads the closure variable `evar`,
which is unbound (`NameError`) when no extensive scan has created one. -/
def tmpStep (k : String) (idx : Option Nat) (lastEvar : Option (Nat × String))
    (acc : List Term × AddCounters) (c : Conn) :
    Except String (List Term × AddCounters) :=
  if k ∈ c.aggregators then
    let n := (alookup acc.2 (c.cid, k)).getD 0
    .ok (acc.1 ++ [.addCall c.cid k n], assocSet acc.2 (c.cid, k) (n + 1))
  else if k ∈ c.extensives.map Prod.fst then
    match lastEvar with
    | none => .error "NameError: evar"
    | some ev => .ok (acc.1 ++ [.evar ev.1 ev.2], acc.2)
  else .ok (acc.1 ++ [.varAt c.cid k idx], acc.2)

def buildTmpGo (k : String) (idx : Option Nat) (lastEvar : Option (Nat × String)) :
    List Conn → List Term × AddCounters → Except String (List Term × AddCounters)
  | [], acc => .ok acc
  | c :: rest, acc =>
      match tmpStep k idx lastEvar acc c with
      | .error e => .error e
      | .ok acc2 => buildTmpGo k idx lastEvar rest acc2

def buildTmp (connSet : List Conn) (k : String) (idx : Option Nat)
    (lastEvar : Option (Nat × String)) (counters : AddCounters) :
    Except String (List Term × AddCounters) :=
  buildTmpGo k idx lastEvar connSet ([], counters)

/-- `Constraint(v[0].index_set(), rule=rule)` (line 304): one rule call per
index of the canonical variable, a single call with `args = None` for a
scalar. -/
def doIndices (connSet : List Conn) (k : String) :
    List (Option Nat) → AddSt → Except String AddSt
  | [], st => .ok st
  | idx :: rest, st =>
      match buildTmp connSet k idx st.lastEvar st.counters with
      | .error e => .error e
      | .ok (tmp, cnt) =>
          doIndices connSet k rest
            ⟨cnt, st.lastEvar, st.cons ++ [⟨k ++ "_equality", idx, tmp⟩],
              st.evars, st.appends⟩

/-- One iteration of `for k, v in sorted(iteritems(ref))` (lines 269-305). -/
def doField (connSet : List Conn) (blk : Nat) (st : AddSt) (kv : String × RefEntry) :
    Except String AddSt :=
  let scan := extScan connSet kv.1 blk
  let st1 : AddSt :=
    ⟨st.counters, if scan.once then some (blk, kv.1) else st.lastEvar,
      st.cons, st.evars ++ scan.evars, st.appends ++ scan.appends⟩
  if scan.cont then .ok st1
  else
    doIndices connSet kv.1
      (if kv.2.1.indexed then kv.2.1.idxSet.map some else [none]) st1

/-- `_ConnExpansion._add_connections`: a singleton set is duplicated
(lines 262-266), then every canonical field is processed in sorted order. -/
def doFields (connSet : List Conn) (blk : Nat) :
    List (String × RefEntry) → AddSt → Except String AddSt
  | [], st => .ok st
  | kv :: rest, st =>
      match doField connSet blk st kv with
      | .error e => .error e
      | .ok st2 => doFields connSet blk rest st2

def addConnections (blk : Nat) (connSet0 : List Conn)
    (ref : List (String × RefEntry)) : Except String AddSt :=
  let connSet := if connSet0.length = 1 then connSet0 ++ connSet0 else connSet0
  doFields connSet blk (sortByKey Prod.fst ref) ⟨[], none, [], [], []⟩

/-- The Python exceptions `_implement_extensives` can raise. -/
inductive PyErr where
  | nameError (n : String)
  | keyError (msg : String)
deriving DecidableEq

/-- `_ConnExpansion._implement_extensives` (lines 316-329).  The loop body
evaluates `etype not in c.extensive_aggregators` (line 320) first, but the
name `c` is bound nowhere in the function (the loop variable is `ctr`), so
Python raises `NameError` as soon as a connector has any `extensives`
entry, whether or not the type is registered; the
`raise KeyError("No aggregator in extensive_aggregators for extensive type ...")`
of lines 321-323 is unreachable. -/
def implementExtensives : List Conn → List String → Except PyErr Unit
  | [], _ => .ok ()
  | ctr :: rest, extAggTable =>
      match ctr.extensives with
      | [] => implementExtensives rest extAggTable
      | _ :: _ => .error (.nameError "c")

/-- Lines 371-380 of `ExpandConnectors._apply_to`: the replacement leaf for
connector `c` and canonical entry `e` at index `idx` when rewriting a
constraint body. -/
def substFor (c : Conn) (k : String) (e : RefEntry) (idx : Option Nat)
    (cnt : AddCounters) : Term × AddCounters :=
  if 0 ≤ e.2.1 then (.varAt c.cid k idx, cnt)
  else if k ∈ c.aggregators then
    ((.addCall c.cid k ((alookup cnt (c.cid, k)).getD 0)),
      assocSet cnt (c.cid, k) (((alookup cnt (c.cid, k)).getD 0) + 1))
  else (.varAt c.cid k none, cnt)

theorem buildTmpGo_spec (k : String) (idx : Option Nat) (le : Option (Nat × String)) :
    ∀ (connSet : List Conn) (acc : List Term) (cnt : AddCounters)
      (tmp : List Term) (cnt2 : AddCounters),
      buildTmpGo k idx le connSet (acc, cnt) = .ok (tmp, cnt2) →
      ∃ suffix, tmp = acc ++ suffix ∧ suffix.length = connSet.length ∧
        ∀ i (hi : i < connSet.length),
          (k ∈ (connSet.get ⟨i, hi⟩).aggregators →
            ∃ n, suffix.getD i dTerm = .addCall (connSet.get ⟨i, hi⟩).cid k n) ∧
          (¬ k ∈ (connSet.get ⟨i, hi⟩).aggregators →
            ¬ k ∈ ((connSet.get ⟨i, hi⟩).extensives.map Prod.fst) →
            suffix.getD i dTerm = .varAt (connSet.get ⟨i, hi⟩).cid k idx) := by
  intro connSet
  induction connSet with
  | nil =>
      intro acc cnt tmp cnt2 h
      have hp : (acc, cnt) = (tmp, cnt2) := Except.ok.inj h
      refine ⟨[], ?_, rfl, ?_⟩
      · rw [← (Prod.mk.injEq _ _ _ _).mp hp |>.1]
        simp
      · intro i hi; simp at hi
  | cons c rest ih =>
      intro acc cnt tmp cnt2 h
      rw [buildTmpGo] at h
      by_cases ha : k ∈ c.aggregators
      · have hstep : tmpStep k idx le (acc, cnt) c =
            .ok (acc ++ [.addCall c.cid k ((alookup cnt (c.cid, k)).getD 0)],
              assocSet cnt (c.cid, k) (((alookup cnt (c.cid, k)).getD 0) + 1)) := by
          simp [tmpStep, ha]
        rw [hstep] at h
        rcases ih _ _ _ _ h with ⟨suffix, hts, hlen, hprops⟩
        refine ⟨.addCall c.cid k ((alookup cnt (c.cid, k)).getD 0) :: suffix, ?_, ?_, ?_⟩
        · rw [hts]; simp
        · simp [hlen]
        · intro i hi
          cases i with
          | zero =>
              refine ⟨fun _ => ⟨_, rfl⟩, fun hna _ => absurd ha hna⟩
          | succ j =>
              have hj : j < rest.length := by simpa using hi
              exact hprops j hj
      · by_cases he : k ∈ c.extensives.map Prod.fst
        · cases le with
          | none =>
              have hstep : tmpStep k idx none (acc, cnt) c = .error "NameError: evar" := by
                simp [tmpStep, ha, he]
              rw [hstep] at h
              exact Except.noConfusion h
          | some ev =>
              have hstep : tmpStep k idx (some ev) (acc, cnt) c =
                  .ok (acc ++ [.evar ev.1 ev.2], cnt) := by
                simp [tmpStep, ha, he]
              rw [hstep] at h
              rcases ih _ _ _ _ h with ⟨suffix, hts, hlen, hprops⟩
              refine ⟨.evar ev.1 ev.2 :: suffix, ?_, ?_, ?_⟩
              · rw [hts]; simp
              · simp [hlen]
              · intro i hi
                cases i with
                | zero =>
                    exact ⟨fun haa => absurd haa ha, fun _ hne => absurd he hne⟩
                | succ j =>
                    have hj : j < rest.length := by simpa using hi
                    exact hprops j hj
        · have hstep : tmpStep k idx le (acc, cnt) c =
              .ok (acc ++ [.varAt c.cid k idx], cnt) := by
            simp [tmpStep, ha, he]
          rw [hstep] at h
          rcases ih _ _ _ _ h with ⟨suffix, hts, hlen, hprops⟩
          refine ⟨.varAt c.cid k idx :: suffix, ?_, ?_, ?_⟩
          · rw [hts]; simp
          · simp [hlen]
          · intro i hi
            cases i with
            | zero =>
                exact ⟨fun haa => absurd haa ha, fun _ _ => rfl⟩
            | succ j =>
                have hj : j < rest.length := by simpa using hi
                exact hprops j hj

theorem buildTmp_spec (connSet : List Conn) (k : String) (idx : Option Nat)
    (le : Option (Nat × String)) (cnt : AddCounters) (tmp : List Term)
    (cnt2 : AddCounters) (h : buildTmp connSet k idx le cnt = .ok (tmp, cnt2)) :
    tmp.length = connSet.length ∧
    ∀ i (hi : i < connSet.length),
      (k ∈ (connSet.get ⟨i, hi⟩).aggregators →
        ∃ n, tmp.getD i dTerm = .addCall (connSet.get ⟨i, hi⟩).cid k n) ∧
      (¬ k ∈ (connSet.get ⟨i, hi⟩).aggregators →
        ¬ k ∈ ((connSet.get ⟨i, hi⟩).extensives.map Prod.fst) →
        tmp.getD i dTerm = .varAt (connSet.get ⟨i, hi⟩).cid k idx) := by
  rcases buildTmpGo_spec k idx le connSet [] cnt tmp cnt2 h with ⟨suffix, hts, hlen, hprops⟩
  have : tmp = suffix := by rw [hts]; simp
  subst this
  exact ⟨hlen, hprops⟩

/-- What holds of every constraint `_add_connections` generates over a
connector set: its name is `<field>_equality`, the rule evaluated one term
per member of the set in order, and each member's term is an `.add()` call
for an aggregator field and a plain variable access otherwise. -/
def ConsProp (connSet : List Conn) (g : GenCon) : Prop :=
  ∃ k, g.cname = k ++ "_equality" ∧ g.tmp.length = connSet.length ∧
    ∀ i (hi : i < connSet.length),
      (k ∈ (connSet.get ⟨i, hi⟩).aggregators →
        ∃ n, g.tmp.getD i dTerm = .addCall (connSet.get ⟨i, hi⟩).cid k n) ∧
      (¬ k ∈ (connSet.get ⟨i, hi⟩).aggregators →
        ¬ k ∈ ((connSet.get ⟨i, hi⟩).extensives.map Prod.fst) →
        g.tmp.getD i dTerm = .varAt (connSet.get ⟨i, hi⟩).cid k g.idx)

theorem doIndices_inv (connSet : List Conn) (k : String) :
    ∀ (idxs : List (Option Nat)) (st st' : AddSt),
      doIndices connSet k idxs st = .ok st' →
      (∀ g, g ∈ st.cons → ConsProp connSet g) →
      ∀ g, g ∈ st'.cons → ConsProp connSet g := by
  intro idxs
  induction idxs with
  | nil =>
      intro st st' h hst
      have : st = st' := Except.ok.inj h
      exact this ▸ hst
  | cons idx rest ih =>
      intro st st' h hst
      rw [doIndices] at h
      cases hbt : buildTmp connSet k idx st.lastEvar st.counters with
      | error e => rw [hbt] at h; exact Except.noConfusion h
      | ok p =>
          obtain ⟨tmp, cnt⟩ := p
          rw [hbt] at h
          refine ih _ _ h ?_
          intro g hg
          rcases List.mem_append.mp hg with hg | hg
          · exact hst g hg
          · have hgeq : g = ⟨k ++ "_equality", idx, tmp⟩ := by simpa using hg
            subst hgeq
            rcases buildTmp_spec connSet k idx st.lastEvar st.counters tmp cnt hbt with
              ⟨hlen, hprops⟩
            exact ⟨k, rfl, hlen, hprops⟩

theorem doField_inv (connSet : List Conn) (blk : Nat) (st st' : AddSt)
    (kv : String × RefEntry) (h : doField connSet blk st kv = .ok st')
    (hst : ∀ g, g ∈ st.cons → ConsProp connSet g) :
    ∀ g, g ∈ st'.cons → ConsProp connSet g := by
  rw [doField] at h
  by_cases hcont : (extScan connSet kv.1 blk).cont
  · rw [if_pos hcont] at h
    have := Except.ok.inj h
    rw [← this]
    exact hst
  · rw [if_neg hcont] at h
    exact doIndices_inv connSet kv.1 _ _ _ h hst

theorem doFields_inv (connSet : List Conn) (blk : Nat) :
    ∀ (flds : List (String × RefEntry)) (st st' : AddSt),
      doFields connSet blk flds st = .ok st' →
      (∀ g, g ∈ st.cons → ConsProp connSet g) →
      ∀ g, g ∈ st'.cons → ConsProp connSet g := by
  intro flds
  induction flds with
  | nil =>
      intro st st' h hst
      have : st = st' := Except.ok.inj h
      exact this ▸ hst
  | cons kv rest ih =>
      intro st st' h hst
      rw [doFields] at h
      cases hdf : doField connSet blk st kv with
      | error e => rw [hdf] at h; exact Except.noConfusion h
      | ok st2 =>
          rw [hdf] at h
          exact ih st2 st' h (doField_inv connSet blk st st2 kv hdf hst)

/-- C10: for a connector set of three or more members, every generated
equality constraint has a rule term for every member of the set in order
(aggregator members contribute a `.add()` call, so their side effect
happens), while the constraint body equates only the first two entries of
that list. -/
theorem multi_connector_rule (blk : Nat) (connSet0 : List Conn)
    (ref : List (String × RefEntry)) (st : AddSt)
    (hok : addConnections blk connSet0 ref = .ok st)
    (hlen : 3 ≤ connSet0.length) :
    ∀ g, g ∈ st.cons →
      GenCon.body g = (g.tmp.getD 0 dTerm, g.tmp.getD 1 dTerm) ∧
      ConsProp connSet0 g := by
  have hne1 : ¬ connSet0.length = 1 := by omega
  rw [addConnections] at hok
  rw [if_neg hne1] at hok
  intro g hg
  refine ⟨rfl, ?_⟩
  exact doFields_inv connSet0 blk (sortByKey Prod.fst ref) _ st hok
    (fun g2 hg2 => by simp at hg2) g hg

def wAgg3 : Conn := ⟨2, "c", "m.c", 3, [("f", some wScalar)], ["f"], []⟩

/-- Witness for C10 at a concrete three-connector set whose third member
routes the field through an aggregator: the single generated constraint
evaluates all three terms, the third being the side-effecting `.add()`. -/
theorem multi_connector_rule_witness :
    GenCon.body ⟨"f_equality", none,
        [.varAt 0 "f" none, .varAt 1 "f" none, .addCall 2 "f" 0]⟩ =
      (.varAt 0 "f" none, .varAt 1 "f" none) ∧
    ConsProp [⟨0, "a", "m.a", 1, [("f", some wScalar)], [], []⟩,
        ⟨1, "b", "m.b", 2, [("f", some wScalar)], [], []⟩, wAgg3]
      ⟨"f_equality", none, [.varAt 0 "f" none, .varAt 1 "f" none, .addCall 2 "f" 0]⟩ := by
  have h := multi_connector_rule 7
    [⟨0, "a", "m.a", 1, [("f", some wScalar)], [], []⟩,
     ⟨1, "b", "m.b", 2, [("f", some wScalar)], [], []⟩, wAgg3]
    (buildRef [⟨0, "a", "m.a", 1, [("f", some wScalar)], [], []⟩,
     ⟨1, "b", "m.b", 2, [("f", some wScalar)], [], []⟩, wAgg3])
    ⟨[((2, "f"), 1)], none,
      [⟨"f_equality", none, [.varAt 0 "f" none, .varAt 1 "f" none, .addCall 2 "f" 0]⟩],
      [], []⟩
    rfl (by decide)
    ⟨"f_equality", none, [.varAt 0 "f" none, .varAt 1 "f" none, .addCall 2 "f" 0]⟩
    (by decide)
  exact ⟨h.1, h.2⟩

theorem doIndices_cons_prefix (connSet : List Conn) (k : String) :
    ∀ (idxs : List (Option Nat)) (st st' : AddSt),
      doIndices connSet k idxs st = .ok st' →
      ∃ extra, st'.cons = st.cons ++ extra := by
  intro idxs
  induction idxs with
  | nil =>
      intro st st' h
      have : st = st' := Except.ok.inj h
      exact ⟨[], by rw [← this]; simp⟩
  | cons idx rest ih =>
      intro st st' h
      rw [doIndices] at h
      cases hbt : buildTmp connSet k idx st.lastEvar st.counters with
      | error e => rw [hbt] at h; exact Except.noConfusion h
      | ok p =>
          obtain ⟨tmp, cnt⟩ := p
          rw [hbt] at h
          rcases ih _ _ h with ⟨extra, hx⟩
          exact ⟨⟨k ++ "_equality", idx, tmp⟩ :: extra, by rw [hx]; simp⟩

theorem doField_cons_prefix (connSet : List Conn) (blk : Nat) (st st' : AddSt)
    (kv : String × RefEntry) (h : doField connSet blk st kv = .ok st') :
    ∃ extra, st'.cons = st.cons ++ extra := by
  rw [doField] at h
  by_cases hcont : (extScan connSet kv.1 blk).cont
  · rw [if_pos hcont] at h
    have := Except.ok.inj h
    exact ⟨[], by rw [← this]; simp⟩
  · rw [if_neg hcont] at h
    rcases doIndices_cons_prefix connSet kv.1 _ _ _ h with ⟨extra, hx⟩
    exact ⟨extra, hx⟩

theorem doFields_cons_prefix (connSet : List Conn) (blk : Nat) :
    ∀ (flds : List (String × RefEntry)) (st st' : AddSt),
      doFields connSet blk flds st = .ok st' →
      ∃ extra, st'.cons = st.cons ++ extra := by
  intro flds
  induction flds with
  | nil =>
      intro st st' h
      have : st = st' := Except.ok.inj h
      exact ⟨[], by rw [← this]; simp⟩
  | cons kv rest ih =>
      intro st st' h
      rw [doFields] at h
      cases hdf : doField connSet blk st kv with
      | error e => rw [hdf] at h; exact Except.noConfusion h
      | ok st2 =>
          rw [hdf] at h
          rcases doField_cons_prefix connSet blk st st2 kv hdf with ⟨e1, h1⟩
          rcases ih st2 st' h with ⟨e2, h2⟩
          exact ⟨e1 ++ e2, by rw [h2, h1]; simp⟩

theorem doIndices_head_mem (connSet : List Conn) (k : String) (idx : Option Nat)
    (rest : List (Option Nat)) (st st' : AddSt)
    (h : doIndices connSet k (idx :: rest) st = .ok st')
    (tmp : List Term) (cnt : AddCounters)
    (hbt : buildTmp connSet k idx st.lastEvar st.counters = .ok (tmp, cnt)) :
    (⟨k ++ "_equality", idx, tmp⟩ : GenCon) ∈ st'.cons := by
  rw [doIndices, hbt] at h
  rcases doIndices_cons_prefix connSet k rest _ _ h with ⟨extra, hx⟩
  rw [hx]
  simp

theorem extScan_none (c : Conn) (k : String) (blk : Nat)
    (hext : findEtype c k = none) :
    extScan [c, c] k blk = ⟨false, false, [], []⟩ := by
  simp [extScan, extScanStep, hext]

theorem buildTmp_pair (c : Conn) (k : String) (idx : Option Nat)
    (le : Option (Nat × String)) (cnt : AddCounters)
    (hetype : ¬ k ∈ c.extensives.map Prod.fst) :
    (¬ k ∈ c.aggregators →
      buildTmp [c, c] k idx le cnt =
        .ok ([.varAt c.cid k idx, .varAt c.cid k idx], cnt)) ∧
    (k ∈ c.aggregators → ∃ n,
      buildTmp [c, c] k idx le cnt =
        .ok ([.addCall c.cid k n, .addCall c.cid k (n + 1)],
          assocSet (assocSet cnt (c.cid, k) (n + 1)) (c.cid, k) (n + 2))) := by
  constructor
  · intro ha
    simp [buildTmp, buildTmpGo, tmpStep, ha, hetype]
  · intro ha
    refine ⟨(alookup cnt (c.cid, k)).getD 0, ?_⟩
    simp only [buildTmp, buildTmpGo, tmpStep, if_pos ha]
    rw [alookup_assocSet]
    simp

theorem doFields_singleton_mem (c : Conn) (blk : Nat) :
    ∀ (flds : List (String × RefEntry)) (st st' : AddSt),
      doFields [c, c] blk flds st = .ok st' →
      ∀ kv, kv ∈ flds → findEtype c kv.1 = none →
        ¬ kv.1 ∈ c.extensives.map Prod.fst →
        (kv.2.1.indexed = false ∨ kv.2.1.idxSet ≠ []) →
        ∃ g, g ∈ st'.cons ∧ g.cname = kv.1 ++ "_equality" ∧ g.tmp.length = 2 ∧
          (¬ kv.1 ∈ c.aggregators →
            g.tmp = [.varAt c.cid kv.1 g.idx, .varAt c.cid kv.1 g.idx]) ∧
          (kv.1 ∈ c.aggregators →
            ∃ n, g.tmp = [.addCall c.cid kv.1 n, .addCall c.cid kv.1 (n + 1)]) := by
  intro flds
  induction flds with
  | nil => intro st st' _ kv hkv; simp at hkv
  | cons kv0 rest ih =>
      intro st st' h kv hkv hext hetype hidx
      rw [doFields] at h
      cases hdf : doField [c, c] blk st kv0 with
      | error e => rw [hdf] at h; exact Except.noConfusion h
      | ok st2 =>
          rw [hdf] at h
          rcases List.mem_cons.mp hkv with rfl | hkvr
          · rw [doField, extScan_none c kv.1 blk hext] at hdf
            have hdf2 : doIndices [c, c] kv.1
                (if kv.2.1.indexed = true then kv.2.1.idxSet.map some else [none])
                ⟨st.counters, st.lastEvar, st.cons, st.evars ++ [], st.appends ++ []⟩
                = .ok st2 := hdf
            obtain ⟨idx0, restIdx, hidxs⟩ :
                ∃ idx0 restIdx, (if kv.2.1.indexed = true then kv.2.1.idxSet.map some
                  else [none]) = idx0 :: restIdx := by
              by_cases hind : kv.2.1.indexed = true
              · rcases hidx with hsc | hnn
                · rw [hsc] at hind; cases hind
                · rw [if_pos hind]
                  cases hS : kv.2.1.idxSet with
                  | nil => exact absurd hS hnn
                  | cons a b => exact ⟨some a, b.map some, by simp⟩
              · rw [if_neg hind]
                exact ⟨none, [], rfl⟩
            rw [hidxs] at hdf2
            rcases doFields_cons_prefix [c, c] blk rest st2 st' h with ⟨extra, hx⟩
            by_cases ha : kv.1 ∈ c.aggregators
            · rcases (buildTmp_pair c kv.1 idx0 st.lastEvar st.counters hetype).2 ha
                with ⟨n, hbt⟩
              refine ⟨⟨kv.1 ++ "_equality", idx0,
                [.addCall c.cid kv.1 n, .addCall c.cid kv.1 (n + 1)]⟩, ?_, rfl, rfl,
                fun hna => absurd ha hna, fun _ => ⟨n, rfl⟩⟩
              have hmem := doIndices_head_mem [c, c] kv.1 idx0 restIdx
                ⟨st.counters, st.lastEvar, st.cons, st.evars ++ [], st.appends ++ []⟩
                st2 hdf2 _ _ hbt
              rw [hx]
              exact List.mem_append_left _ hmem
            · have hbt := (buildTmp_pair c kv.1 idx0 st.lastEvar st.counters hetype).1 ha
              refine ⟨⟨kv.1 ++ "_equality", idx0,
                [.varAt c.cid kv.1 idx0, .varAt c.cid kv.1 idx0]⟩, ?_, rfl, rfl,
                fun _ => rfl, fun haa => absurd haa ha⟩
              have hmem := doIndices_head_mem [c, c] kv.1 idx0 restIdx
                ⟨st.counters, st.lastEvar, st.cons, st.evars ++ [], st.appends ++ []⟩
                st2 hdf2 _ _ hbt
              rw [hx]
              exact List.mem_append_left _ hmem
          · exact ih st2 st' h kv hkvr hext hetype hidx

/-- C8 amended: for a connection joining a connector to itself, the set is
processed as the two-element list `[c, c]`, and every canonical field that
is not extensive on the connector (and has a nonempty constraint index set)
yields an equality constraint whose two rule terms come from the same
connector — a trivial self-equality for plain fields, two successive
`.add()` results for aggregator fields.  Fields extensive on the connector
yield no constraint (both occurrences share the synthesized variable). -/
theorem singleton_self_equality (blk : Nat) (c : Conn)
    (ref : List (String × RefEntry)) (st : AddSt)
    (hok : addConnections blk [c] ref = .ok st)
    (k : String) (e : RefEntry) (hke : (k, e) ∈ ref)
    (hext : findEtype c k = none) (hetype : ¬ k ∈ c.extensives.map Prod.fst)
    (hidx : e.1.indexed = false ∨ e.1.idxSet ≠ []) :
    ∃ g, g ∈ st.cons ∧ g.cname = k ++ "_equality" ∧ g.tmp.length = 2 ∧
      (¬ k ∈ c.aggregators →
        g.tmp = [.varAt c.cid k g.idx, .varAt c.cid k g.idx] ∧
        GenCon.body g = (.varAt c.cid k g.idx, .varAt c.cid k g.idx)) ∧
      (k ∈ c.aggregators →
        ∃ n, g.tmp = [.addCall c.cid k n, .addCall c.cid k (n + 1)]) := by
  rw [addConnections] at hok
  rw [if_pos (by simp : ([c] : List Conn).length = 1)] at hok
  have hkeS : (k, e) ∈ sortByKey (γ := String) Prod.fst ref :=
    (perm_sortByKey Prod.fst ref).mem_iff.mpr hke
  rcases doFields_singleton_mem c blk (sortByKey Prod.fst ref) _ st hok (k, e) hkeS
      hext hetype hidx with ⟨g, hg, hn, hl, hplain, hagg⟩
  refine ⟨g, hg, hn, hl, ?_, hagg⟩
  intro hna
  have ht := hplain hna
  exact ⟨ht, by rw [GenCon.body, ht]; rfl⟩

/-- C8 as frozen is refuted here: a self-connection whose only canonical
field is extensive on the connector generates zero equality constraints
(`cons = []`), not at least one per canonical field. -/
theorem singleton_extensive_no_constraint :
    addConnections 7 [⟨0, "s", "m.s", 5, [("f", some wScalar)], [], [("etype1", ["f"])]⟩]
      (buildRef [⟨0, "s", "m.s", 5, [("f", some wScalar)], [], [("etype1", ["f"])]⟩])
      = .ok ⟨[], some (7, "f"), [], [(7, "f")],
          [(0, "etype1", "f"), (0, "etype1", "f")]⟩ := rfl

/-- Witness for the amended C8: a plain single-field self-connection yields
exactly the trivial self-equality constraint. -/
theorem singleton_self_equality_witness :
    ∃ g, g ∈ (⟨[], none,
        [⟨"f_equality", none, [.varAt 0 "f" none, .varAt 0 "f" none]⟩], [], []⟩ :
          AddSt).cons ∧
      g.cname = "f" ++ "_equality" ∧ g.tmp.length = 2 ∧
      (¬ "f" ∈ (⟨0, "s", "m.s", 5, [("f", some wScalar)], [], []⟩ : Conn).aggregators →
        g.tmp = [.varAt 0 "f" g.idx, .varAt 0 "f" g.idx] ∧
        GenCon.body g = (.varAt 0 "f" g.idx, .varAt 0 "f" g.idx)) ∧
      ("f" ∈ (⟨0, "s", "m.s", 5, [("f", some wScalar)], [], []⟩ : Conn).aggregators →
        ∃ n, g.tmp = [.addCall 0 "f" n, .addCall 0 "f" (n + 1)]) :=
  singleton_self_equality 7 ⟨0, "s", "m.s", 5, [("f", some wScalar)], [], []⟩
    (buildRef [⟨0, "s", "m.s", 5, [("f", some wScalar)], [], []⟩])
    ⟨[], none, [⟨"f_equality", none, [.varAt 0 "f" none, .varAt 0 "f" none]⟩], [], []⟩
    rfl "f" (wScalar, -1, ⟨0, "s", "m.s", 5, [("f", some wScalar)], [], []⟩)
    (by decide) (by decide) (by decide) (Or.inl (by decide))

/-- An aggregator-backed field: a `VarList`, indexed and initially empty. -/
def vList : VarData := ⟨true, [], none, none, []⟩

/-- C7 amended: an aggregator field (shape code `-2`) is treated as
non-indexed by the shape check, so a class pairing it with a plain
non-indexed variable validates without error; and rewriting always reaches
the aggregator side through `.add()` — in the connection rule and in the
constraint-expansion substitution — never through direct indexing. -/
theorem aggregator_bypass :
    (∀ (k : String) (vl vs : VarData) (c1 c2 : Conn),
      c1.vars = [(k, some vl)] → c2.vars = [(k, some vs)] →
      k ∈ c1.aggregators → ¬ k ∈ c2.aggregators → vs.indexed = false →
      ∃ res, validateAndExpand [c1, c2] = .ok res)
    ∧ (∀ (connSet : List Conn) (k : String) (idx : Option Nat)
        (le : Option (Nat × String)) (cnt : AddCounters) (tmp : List Term)
        (cnt2 : AddCounters), buildTmp connSet k idx le cnt = .ok (tmp, cnt2) →
        ∀ i (hi : i < connSet.length), k ∈ (connSet.get ⟨i, hi⟩).aggregators →
          ∃ n, tmp.getD i dTerm = .addCall (connSet.get ⟨i, hi⟩).cid k n)
    ∧ (∀ (c : Conn) (k : String) (e : RefEntry) (idx : Option Nat)
        (cnt : AddCounters), e.2.1 < 0 → k ∈ c.aggregators →
        (substFor c k e idx cnt).1 =
          .addCall c.cid k ((alookup cnt (c.cid, k)).getD 0)) := by
  refine ⟨?_, ?_, ?_⟩
  · intro k vl vs c1 c2 h1 h2 ha1 ha2 hvs
    apply (validateAndExpand_ok_iff [c1, c2]).mpr
    have hl1 : lenCode c1 k vl = -2 := by simp [lenCode, ha1]
    have hl2 : lenCode c2 k vs = -1 := by simp [lenCode, ha2, hvs]
    have href : buildRef [c1, c2] = [(k, (vl, -2, c1))] := by
      rw [show buildRef [c1, c2]
          = addVarsToRef c2 c2.vars (addVarsToRef c1 c1.vars []) from rfl, h1, h2]
      simp [addVarsToRef, alookup, hl1]
    rw [href]
    have hlk1 : alookup c1.vars k = some (some vl) := by rw [h1]; simp [alookup]
    have hlk2 : alookup c2.vars k = some (some vs) := by rw [h2]; simp [alookup]
    have hf1 : fieldAgrees c1 k (vl, -2, c1) = true := by
      rw [fieldAgrees_lookup_assigned hlk1]
      simp [hl1]
    have hf2 : fieldAgrees c2 k (vl, -2, c1) = true := by
      rw [fieldAgrees_lookup_assigned hlk2]
      simp [hl2]
    simp [connAgrees, hf1, hf2]
  · intro connSet k idx le cnt tmp cnt2 h i hi ha
    exact ((buildTmp_spec connSet k idx le cnt tmp cnt2 h).2 i hi).1 ha
  · intro c k e idx cnt he ha
    rw [substFor, if_neg (not_le.mpr he), if_pos ha]

/-- C7 as frozen is refuted here: a class pairing an aggregator field with
a plain *indexed* variable raises the mixing-indexed-and-non-indexed error
instead of bypassing the shape check (shape code `-2` counts as
non-indexed). -/
theorem aggregator_indexed_mixing :
    validateAndExpand
      [⟨0, "a", "m.a", 1, [("f", some vList)], ["f"], []⟩,
       ⟨1, "b", "m.b", 2, [("f", some wIndexed)], [], []⟩]
      = .error (.mixed "f" "a" "b") := rfl

/-- Witness for C7: a concrete aggregator + plain scalar class validates,
and the substitution for the aggregator side is an `.add()` call. -/
theorem aggregator_bypass_witness :
    (∃ res, validateAndExpand
      [⟨0, "a", "m.a", 1, [("f", some vList)], ["f"], []⟩,
       ⟨1, "b", "m.b", 2, [("f", some wScalar)], [], []⟩] = .ok res)
    ∧ (substFor ⟨0, "a", "m.a", 1, [("f", some vList)], ["f"], []⟩ "f"
        (vList, -2, ⟨0, "a", "m.a", 1, [("f", some vList)], ["f"], []⟩) none []).1
        = .addCall 0 "f" 0 :=
  ⟨aggregator_bypass.1 "f" vList wScalar _ _ rfl rfl (by decide) (by decide) (by decide),
   aggregator_bypass.2.2 ⟨0, "a", "m.a", 1, [("f", some vList)], ["f"], []⟩ "f"
     (vList, -2, ⟨0, "a", "m.a", 1, [("f", some vList)], ["f"], []⟩) none []
     (by decide) (by decide)⟩

/-! ## C2: determinism of output generation -/

theorem sortByKey_perm_eq (key : β → γ) [LinearOrder γ] (l l' : List β)
    (hp : List.Perm l l') (hnd : (l.map key).Nodup) :
    sortByKey key l = sortByKey key l' := by
  apply sorted_perm_unique key
  · exact ((perm_sortByKey key l).trans hp).trans (perm_sortByKey key l').symm
  · exact sorted_sortByKey key l
  · exact sorted_sortByKey key l'
  · exact ((perm_sortByKey key l).map key).nodup_iff.mpr hnd

/-- Lines 104-107: each connector class is validated and expanded, iterating
the classes in the order of `sorted(itervalues(connector_groups))`, whose
values are `(groupID, conn_set)` pairs with unique groupIDs — i.e. sorted by
groupID.  `toConn` resolves a connector id to its data. -/
def validateSorted (toConn : Nat → Conn) :
    List (Nat × List Nat) → Except VErr (List (Nat × ExpandResult))
  | [] => .ok []
  | g :: rest =>
      match validateAndExpand (g.2.map toConn) with
      | .error e => .error e
      | .ok r =>
          match validateSorted toConn rest with
          | .error e => .error e
          | .ok rs => .ok ((g.1, r) :: rs)

def validateClasses (toConn : Nat → Conn) (groups : List (Nat × List Nat)) :
    Except VErr (List (Nat × ExpandResult)) :=
  validateSorted toConn (sortByKey Prod.fst groups)

def cex5 : Conn :=
  ⟨0, "u", "m.u", 3, [("flow", some wScalar)], [], [("material", ["flow"])]⟩

/-- C5: evaluating `_implement_extensives` on a connector that declares an
extensives entry raises `NameError` for the unbound name `c` of line 320 —
even when the extensive type is registered — and never reaches the
intended `KeyError` of lines 321-323. -/
theorem implement_extensives_name_error :
    implementExtensives [cex5] ["material"] = .error (.nameError "c") ∧
    ∀ msg, ¬ implementExtensives [cex5] ["material"] = .error (.keyError msg) := by
  refine ⟨rfl, ?_⟩
  intro msg h
  have h2 : (Except.error (PyErr.nameError "c") : Except PyErr Unit)
      = .error (.keyError msg) := h
  exact PyErr.noConfusion (Except.error.inj h2)

/-- C2: output generation is deterministic.  Every iteration used for output
is ordered by an explicit sort key, so the result is invariant under any
permutation of the underlying container (the stand-in for memory-layout /
hash-order differences between two runs): classes are processed sorted by
groupID, constraint generation iterates fields sorted by field name, and the
empty-connector warning sorts connector names. -/
theorem deterministic_output :
    (∀ (toConn : Nat → Conn) (groups groups' : List (Nat × List Nat)),
      List.Perm groups groups' → (groups.map Prod.fst).Nodup →
      validateClasses toConn groups = validateClasses toConn groups')
    ∧ (∀ (blk : Nat) (connSet : List Conn) (ref ref' : List (String × RefEntry)),
      List.Perm ref ref' → (ref.map Prod.fst).Nodup →
      addConnections blk connSet ref = addConnections blk connSet ref')
    ∧ (∀ (conns conns' : List Conn),
      List.Perm conns conns' → (conns.map Conn.name).Nodup →
      warnEmpty conns = warnEmpty conns') := by
  refine ⟨?_, ?_, ?_⟩
  · intro toConn groups groups' hp hnd
    unfold validateClasses
    rw [sortByKey_perm_eq Prod.fst groups groups' hp hnd]
  · intro blk connSet ref ref' hp hnd
    unfold addConnections
    rw [sortByKey_perm_eq Prod.fst ref ref' hp hnd]
  · intro conns conns' hp hnd
    unfold warnEmpty
    have hmp : List.Perm (conns.map Conn.name) (conns'.map Conn.name) := hp.map Conn.name
    have hnd2 : ((conns.map Conn.name).map id).Nodup := by simpa using hnd
    rw [sortByKey_perm_eq id (conns.map Conn.name) (conns'.map Conn.name) hmp hnd2]

/-- Witness for C2: swapping the container order of two classes, of two
canonical fields, and of two empty connectors leaves each output unchanged. -/
theorem deterministic_output_witness :
    validateClasses (fun _ => ⟨0, "a", "m.a", 1, [("f", some wScalar)], [], []⟩)
        [(1, [0]), (0, [0])]
      = validateClasses (fun _ => ⟨0, "a", "m.a", 1, [("f", some wScalar)], [], []⟩)
        [(0, [0]), (1, [0])]
    ∧ addConnections 5 [⟨0, "a", "m.a", 1, [("f", some wScalar)], [], []⟩]
        [("g", (wScalar, -1, ⟨0, "a", "m.a", 1, [("f", some wScalar)], [], []⟩)),
         ("f", (wScalar, -1, ⟨0, "a", "m.a", 1, [("f", some wScalar)], [], []⟩))]
      = addConnections 5 [⟨0, "a", "m.a", 1, [("f", some wScalar)], [], []⟩]
        [("f", (wScalar, -1, ⟨0, "a", "m.a", 1, [("f", some wScalar)], [], []⟩)),
         ("g", (wScalar, -1, ⟨0, "a", "m.a", 1, [("f", some wScalar)], [], []⟩))]
    ∧ warnEmpty [⟨0, "a", "m.a", 1, [], [], []⟩, ⟨1, "b", "m.b", 1, [], [], []⟩]
      = warnEmpty [⟨1, "b", "m.b", 1, [], [], []⟩, ⟨0, "a", "m.a", 1, [], [], []⟩] :=
  ⟨deterministic_output.1 (fun _ => ⟨0, "a", "m.a", 1, [("f", some wScalar)], [], []⟩)
      _ _ (List.Perm.swap _ _ _) (by decide),
   deterministic_output.2.1 5 [⟨0, "a", "m.a", 1, [("f", some wScalar)], [], []⟩]
      _ _ (List.Perm.swap _ _ _) (by decide),
   deterministic_output.2.2 _ _ (List.Perm.swap _ _ _) (by decide)⟩

/-! ## C9: linear-solver back-solve test -/

/-- A dense 3x3 matrix over the rationals (the test matrices are 3x3). -/
structure Mat3 where
  a11 : ℚ
  a12 : ℚ
  a13 : ℚ
  a21 : ℚ
  a22 : ℚ
  a23 : ℚ
  a31 : ℚ
  a32 : ℚ
  a33 : ℚ
  deriving DecidableEq

def Mat3.mulVec (A : Mat3) (v : ℚ × ℚ × ℚ) : ℚ × ℚ × ℚ :=
  (A.a11 * v.1 + A.a12 * v.2.1 + A.a13 * v.2.2,
   A.a21 * v.1 + A.a22 * v.2.1 + A.a23 * v.2.2,
   A.a31 * v.1 + A.a32 * v.2.1 + A.a33 * v.2.2)

def det3 (A : Mat3) : ℚ :=
  A.a11 * (A.a22 * A.a33 - A.a23 * A.a32)
    - A.a12 * (A.a21 * A.a33 - A.a23 * A.a31)
    + A.a13 * (A.a21 * A.a32 - A.a22 * A.a31)

/-- The (i, j) entry of a COO triple list, summing duplicates as
`scipy.sparse.coo_matrix` does. -/
def cooEntry (es : List (Nat × Nat × ℚ)) (i j : Nat) : ℚ :=
  es.foldl (fun acc e => if e.1 = i ∧ e.2.1 = j then acc + e.2.2 else acc) 0

def cooToMat3 (es : List (Nat × Nat × ℚ)) : Mat3 :=
  ⟨cooEntry es 0 0, cooEntry es 0 1, cooEntry es 0 2,
   cooEntry es 1 0, cooEntry es 1 1, cooEntry es 1 2,
   cooEntry es 2 0, cooEntry es 2 1, cooEntry es 2 2⟩

/-- Modelled from the spec: a symmetric backend reads a lower-triangular COO
form as the symmetric matrix it represents (entry (i, j) with i < j mirrors
(j, i)). -/
def trilToMat3 (es : List (Nat × Nat × ℚ)) : Mat3 :=
  ⟨cooEntry es 0 0, cooEntry es 1 0, cooEntry es 2 0,
   cooEntry es 1 0, cooEntry es 1 1, cooEntry es 2 1,
   cooEntry es 2 0, cooEntry es 2 1, cooEntry es 2 2⟩

/-- `get_base_matrix(use_tril=False)`: row=[0,0,0,1,1,2,2], col=[0,1,2,0,1,0,2],
data=[1,7,3,7,4,3,6]. -/
def fullCoo : List (Nat × Nat × ℚ) :=
  [(0, 0, 1), (0, 1, 7), (0, 2, 3), (1, 0, 7), (1, 1, 4), (2, 0, 3), (2, 2, 6)]

/-- `get_base_matrix(use_tril=True)`: row=[0,1,1,2,2], col=[0,0,1,0,2],
data=[1,7,4,3,6]. -/
def trilCoo : List (Nat × Nat × ℚ) :=
  [(0, 0, 1), (1, 0, 7), (1, 1, 4), (2, 0, 3), (2, 2, 6)]

/-- The test matrix of `_test_linear_solvers`. -/
def S9 : Mat3 := cooToMat3 fullCoo

/-- The lower-triangular COO of the claim denotes the same symmetric matrix
as the full COO the executed test passes to the solver. -/
theorem S9_eq : S9 = ⟨1, 7, 3, 7, 4, 0, 3, 0, 6⟩ := by
  norm_num [S9, cooToMat3, fullCoo, cooEntry, Mat3.mk.injEq]

theorem trilCoo_denotes_S9 : trilToMat3 trilCoo = S9 := by
  norm_num [trilToMat3, cooToMat3, S9, fullCoo, trilCoo, cooEntry, Mat3.mk.injEq]

/-- Modelled from the spec: a conforming linear-solver backend.  After
symbolic and numeric factorization of a nonsingular matrix, `do_back_solve`
returns a vector solving the factored system; `solve` depends only on the
factored matrix and the right-hand side, so repeated back-solves reuse the
one factorization (no refactorization between calls). -/
structure BackSolver where
  solve : Mat3 → (ℚ × ℚ × ℚ) → (ℚ × ℚ × ℚ)
  correct : ∀ (A : Mat3) (v : ℚ × ℚ × ℚ), det3 A ≠ 0 → A.mulVec (solve A v) = v

/-- C9: for every conforming backend, back-solving the factored test matrix
against rhs = S9 * [1,2,3] recovers [1,2,3] to within 1e-6 componentwise, and
a second back-solve against rhs = S9 * [4,2,3] — reusing the same
factorization, with no refactorization call — returns [4,2,3]. -/
theorem back_solve_test (b : BackSolver) :
    (|(b.solve S9 (S9.mulVec (1, 2, 3))).1 - 1| < 1 / 1000000
      ∧ |(b.solve S9 (S9.mulVec (1, 2, 3))).2.1 - 2| < 1 / 1000000
      ∧ |(b.solve S9 (S9.mulVec (1, 2, 3))).2.2 - 3| < 1 / 1000000)
    ∧ b.solve S9 (S9.mulVec (4, 2, 3)) = (4, 2, 3) := by
  have hdet : det3 S9 ≠ 0 := by
    have : det3 S9 = -306 := by rw [S9_eq]; norm_num [det3]
    rw [this]; norm_num
  have hu : ∀ v w : ℚ × ℚ × ℚ, S9.mulVec w = S9.mulVec v → w = v := by
    intro v w h
    obtain ⟨v1, v2, v3⟩ := v
    obtain ⟨w1, w2, w3⟩ := w
    have hS : S9 = ⟨1, 7, 3, 7, 4, 0, 3, 0, 6⟩ := S9_eq
    rw [hS] at h
    simp only [Mat3.mulVec, Prod.mk.injEq] at h
    obtain ⟨e1, e2, e3⟩ := h
    simp only [Prod.mk.injEq]
    refine ⟨by linarith, by linarith, by linarith⟩
  have hx1 : b.solve S9 (S9.mulVec (1, 2, 3)) = (1, 2, 3) :=
    hu (1, 2, 3) _ (b.correct S9 (S9.mulVec (1, 2, 3)) hdet)
  have hx2 : b.solve S9 (S9.mulVec (4, 2, 3)) = (4, 2, 3) :=
    hu (4, 2, 3) _ (b.correct S9 (S9.mulVec (4, 2, 3)) hdet)
  rw [hx1, hx2]
  norm_num

/-- The adjugate of a 3x3 matrix. -/
def adj3 (A : Mat3) : Mat3 :=
  ⟨A.a22 * A.a33 - A.a23 * A.a32, -(A.a12 * A.a33 - A.a13 * A.a32),
     A.a12 * A.a23 - A.a13 * A.a22,
   -(A.a21 * A.a33 - A.a23 * A.a31), A.a11 * A.a33 - A.a13 * A.a31,
     -(A.a11 * A.a23 - A.a13 * A.a21),
   A.a21 * A.a32 - A.a22 * A.a31, -(A.a11 * A.a32 - A.a12 * A.a31),
     A.a11 * A.a22 - A.a12 * A.a21⟩

/-- An exact direct solver realizing the backend contract by Cramer's rule. -/
def cramerSolve : BackSolver where
  solve A v :=
    (((adj3 A).mulVec v).1 / det3 A,
     ((adj3 A).mulVec v).2.1 / det3 A,
     ((adj3 A).mulVec v).2.2 / det3 A)
  correct := by
    intro A v hd
    obtain ⟨v1, v2, v3⟩ := v
    simp only [Mat3.mulVec, adj3, det3] at *
    simp only [Prod.mk.injEq]
    refine ⟨?_, ?_, ?_⟩ <;> (field_simp; ring)

/-- Witness for C9: the Cramer's-rule backend satisfies the test. -/
theorem back_solve_test_witness :
    (|(cramerSolve.solve S9 (S9.mulVec (1, 2, 3))).1 - 1| < 1 / 1000000
      ∧ |(cramerSolve.solve S9 (S9.mulVec (1, 2, 3))).2.1 - 2| < 1 / 1000000
      ∧ |(cramerSolve.solve S9 (S9.mulVec (1, 2, 3))).2.2 - 3| < 1 / 1000000)
    ∧ cramerSolve.solve S9 (S9.mulVec (4, 2, 3)) = (4, 2, 3) :=
  back_solve_test cramerSolve

end PyomoSpec
